import Mathlib

/-!
Verification of the leveldb block-codec repository slice: the Status result
type (include/leveldb/status.h), the Env interface and its helpers
(include/leveldb/env.h, util/env.cc), and the block builder/reader layer
(src/unnamed/part_000 declares BlockBuilder; its method bodies and the
Block/BlockIterator reader are not in the source tree, so those operations
are modelled from the specification, as marked on each definition).

Bytes are modelled as natural numbers (written mod 256 where the code
writes raw bytes); byte strings as lists; out-parameters as returned
values; the mutable world touched by Env operations as an abstract state
threaded through each call.
-/

namespace LevelDB

/-- Error codes of `Status::Code` in include/leveldb/status.h
(kOk = 0 .. kIOError = 5). -/
inductive Code where
  | kOk
  | kNotFound
  | kCorruption
  | kNotSupported
  | kInvalidArgument
  | kIOError
deriving DecidableEq, Repr

/-- Mirrors `Status::state_` in include/leveldb/status.h: `none` is the OK
status (null `state_`); otherwise the stored error code (byte 4 of the
packed `new[]` array) together with the message bytes (bytes 5 and up);
the redundant length prefix of the packed array is dropped. -/
structure Status where
  state : Option (Code × String)
deriving DecidableEq, Repr

/-- Embeds `Status::code()`: `kOk` for a null state, else the stored code. -/
def Status.code (s : Status) : Code :=
  match s.state with
  | none => Code.kOk
  | some (c, _) => c

/-- Embeds `Status::ok()`: true iff `state_` is null. -/
def Status.ok (s : Status) : Bool :=
  s.state.isNone

/-- Embeds `Status::IsNotFound()`. -/
def Status.IsNotFound (s : Status) : Bool :=
  s.code == Code.kNotFound

/-- Embeds `Status::IsCorruption()`. -/
def Status.IsCorruption (s : Status) : Bool :=
  s.code == Code.kCorruption

/-- Embeds `Status::IsIOError()`. -/
def Status.IsIOError (s : Status) : Bool :=
  s.code == Code.kIOError

/-- Embeds `Status::IsNotSupportedError()`. -/
def Status.IsNotSupportedError (s : Status) : Bool :=
  s.code == Code.kNotSupported

/-- Embeds `Status::IsInvalidArgument()`. -/
def Status.IsInvalidArgument (s : Status) : Bool :=
  s.code == Code.kInvalidArgument

/-- Modelled from the spec: the private constructor
`Status::Status(Code, Slice, Slice)` lives in the missing util/status.cc;
per the spec the message is composed of up to two text fragments joined by
a separator (": "), the second fragment being optional (empty means
absent). -/
def joinFragments (msg msg2 : String) : String :=
  if msg2.isEmpty then msg else msg ++ ": " ++ msg2

/-- Modelled from the spec: packs an error code and two message fragments
into a status, as the missing private constructor in util/status.cc does. -/
def Status.mkError (c : Code) (msg msg2 : String) : Status :=
  ⟨some (c, joinFragments msg msg2)⟩

/-- Embeds `Status::OK()`. -/
def Status.OK : Status :=
  ⟨none⟩

/-- Embeds `Status::NotFound(msg, msg2)`. -/
def Status.NotFound (msg msg2 : String) : Status :=
  Status.mkError Code.kNotFound msg msg2

/-- Embeds `Status::Corruption(msg, msg2)`. -/
def Status.Corruption (msg msg2 : String) : Status :=
  Status.mkError Code.kCorruption msg msg2

/-- Embeds `Status::NotSupported(msg, msg2)`. -/
def Status.NotSupported (msg msg2 : String) : Status :=
  Status.mkError Code.kNotSupported msg msg2

/-- Embeds `Status::InvalidArgument(msg, msg2)`. -/
def Status.InvalidArgument (msg msg2 : String) : Status :=
  Status.mkError Code.kInvalidArgument msg msg2

/-- Embeds `Status::IOError(msg, msg2)`. -/
def Status.IOError (msg msg2 : String) : Status :=
  Status.mkError Code.kIOError msg msg2

/-- Modelled from the spec: the kind names used by the textual rendering
(the spec names the kinds NotFound, Corruption, NotSupported,
InvalidArgument, IOError, and the success marker "OK"); the rendering body
`Status::ToString()` lives in the missing util/status.cc. -/
def Code.kindName : Code → String
  | Code.kOk => "OK"
  | Code.kNotFound => "NotFound"
  | Code.kCorruption => "Corruption"
  | Code.kNotSupported => "NotSupported"
  | Code.kInvalidArgument => "InvalidArgument"
  | Code.kIOError => "IOError"

/-- Modelled from the spec: `Status::ToString()` (body in the missing
util/status.cc) renders the literal success marker "OK" when there is no
error, else the kind name followed by a colon and the joined message
fragments. -/
def Status.ToString (s : Status) : String :=
  match s.state with
  | none => "OK"
  | some (c, m) => c.kindName ++ ": " ++ m

/-- Shallow model of the `SequentialFile` virtual interface in
include/leveldb/env.h over an abstract world `ω`: `Read(n)` yields a
status and the bytes read, `Skip(n)` a status. -/
structure SequentialFile (ω : Type) where
  read : Nat → ω → (Status × List Nat) × ω
  skip : Nat → ω → Status × ω

/-- Shallow model of the `RandomAccessFile` virtual interface in
include/leveldb/env.h: `Read(offset, n)` yields a status and the bytes. -/
structure RandomAccessFile (ω : Type) where
  read : Nat → Nat → ω → (Status × List Nat) × ω

/-- Shallow model of the `WritableFile` virtual interface in
include/leveldb/env.h: Append, Close, Flush, Sync, each a status-returning
step on the abstract world. -/
structure WritableFile (ω : Type) where
  append : List Nat → ω → Status × ω
  close : ω → Status × ω
  flush : ω → Status × ω
  sync : ω → Status × ω

/-- Shallow model of the `Logger` virtual interface in
include/leveldb/env.h. -/
structure Logger (ω : Type) where
  logv : String → ω → ω

/-- Shallow model of the `Env` virtual interface in include/leveldb/env.h:
each virtual method is a field acting on an abstract world `ω`;
out-parameters become returned values (the file-creation calls return the
file object standing for the pointer stored in the out-parameter, to be
consulted only when the status is ok, as the C++ contract demands), lock
handles and the thread-entry function/argument pairs are abstract
identifiers. -/
structure Env (ω : Type) where
  newSequentialFile : String → ω → (Status × SequentialFile ω) × ω
  newRandomAccessFile : String → ω → (Status × RandomAccessFile ω) × ω
  newWritableFile : String → ω → (Status × WritableFile ω) × ω
  newAppendableFile : String → ω → (Status × WritableFile ω) × ω
  fileExists : String → ω → Bool × ω
  getChildren : String → ω → (Status × List String) × ω
  deleteFile : String → ω → Status × ω
  createDir : String → ω → Status × ω
  deleteDir : String → ω → Status × ω
  getFileSize : String → ω → (Status × Nat) × ω
  renameFile : String → String → ω → Status × ω
  lockFile : String → ω → (Status × Nat) × ω
  unlockFile : Nat → ω → Status × ω
  schedule : Nat → Nat → ω → ω
  startThread : Nat → Nat → ω → ω
  getTestDirectory : ω → (Status × String) × ω
  newLogger : String → ω → (Status × Logger ω) × ω
  nowMicros : ω → Nat × ω
  sleepForMicroseconds : Int → ω → ω

/-- Embeds the base-class default `Env::NewAppendableFile` in util/env.cc:
it returns `Status::NotSupported("NewAppendableFile", fname)` and stores
nothing in the out-parameter (the absent file handle is `none`). -/
def envNewAppendableFileDefault (fname : String) : Status × Option Unit :=
  (Status.NotSupported "NewAppendableFile" fname, none)

/-- Embeds the `EnvWrapper` class of include/leveldb/env.h: a struct
holding the inner `Env* target_`. -/
structure EnvWrapper (ω : Type) where
  target_ : Env ω

/-- Embeds `EnvWrapper::target()`: returns the wrapped Env. -/
def EnvWrapper.target {ω : Type} (e : EnvWrapper ω) : Env ω :=
  e.target_

/-- Embeds the forwarding method bodies of `EnvWrapper` in
include/leveldb/env.h: every Env operation invokes the same operation of
`target_` on the same arguments. -/
def EnvWrapper.toEnv {ω : Type} (e : EnvWrapper ω) : Env ω where
  newSequentialFile := fun f w => e.target_.newSequentialFile f w
  newRandomAccessFile := fun f w => e.target_.newRandomAccessFile f w
  newWritableFile := fun f w => e.target_.newWritableFile f w
  newAppendableFile := fun f w => e.target_.newAppendableFile f w
  fileExists := fun f w => e.target_.fileExists f w
  getChildren := fun d w => e.target_.getChildren d w
  deleteFile := fun f w => e.target_.deleteFile f w
  createDir := fun d w => e.target_.createDir d w
  deleteDir := fun d w => e.target_.deleteDir d w
  getFileSize := fun f w => e.target_.getFileSize f w
  renameFile := fun s t w => e.target_.renameFile s t w
  lockFile := fun f w => e.target_.lockFile f w
  unlockFile := fun l w => e.target_.unlockFile l w
  schedule := fun f a w => e.target_.schedule f a w
  startThread := fun f a w => e.target_.startThread f a w
  getTestDirectory := fun w => e.target_.getTestDirectory w
  newLogger := fun f w => e.target_.newLogger f w
  nowMicros := fun w => e.target_.nowMicros w
  sleepForMicroseconds := fun m w => e.target_.sleepForMicroseconds m w

/-- Embeds `DoWriteStringToFile` in util/env.cc: create the writable file,
append the data, optionally sync, close, and delete the named file when
any step after creation failed; the status of the first failing step is
returned. -/
def DoWriteStringToFile {ω : Type} (env : Env ω) (data : List Nat)
    (fname : String) (should_sync : Bool) (w : ω) : Status × ω :=
  let rNew := env.newWritableFile fname w
  let s1 := rNew.1.1
  let file := rNew.1.2
  let w1 := rNew.2
  if s1.ok = false then (s1, w1)
  else
    let rApp := file.append data w1
    let rSync := if rApp.1.ok && should_sync then file.sync rApp.2 else rApp
    let rClose := if rSync.1.ok then file.close rSync.2 else rSync
    if rClose.1.ok = false then (rClose.1, (env.deleteFile fname rClose.2).2)
    else rClose

/-- Embeds `WriteStringToFile` in util/env.cc. -/
def WriteStringToFile {ω : Type} (env : Env ω) (data : List Nat)
    (fname : String) (w : ω) : Status × ω :=
  DoWriteStringToFile env data fname false w

/-- Embeds `WriteStringToFileSync` in util/env.cc. -/
def WriteStringToFileSync {ω : Type} (env : Env ω) (data : List Nat)
    (fname : String) (w : ω) : Status × ω :=
  DoWriteStringToFile env data fname true w

/-- Concrete logging writable file used to witness the env.cc theorems:
the world is the list of performed operations, newest last. -/
def logFile : WritableFile (List String) where
  append := fun _ w => (Status.OK, w ++ ["append"])
  close := fun w => (Status.OK, w ++ ["close"])
  flush := fun w => (Status.OK, w ++ ["flush"])
  sync := fun w => (Status.OK, w ++ ["sync"])

/-- Concrete logging Env used to witness the env.cc theorems. -/
def logEnv : Env (List String) where
  newSequentialFile := fun _ w =>
    ((Status.OK, ⟨fun _ w => ((Status.OK, []), w), fun _ w => (Status.OK, w)⟩), w)
  newRandomAccessFile := fun _ w =>
    ((Status.OK, ⟨fun _ _ w => ((Status.OK, []), w)⟩), w)
  newWritableFile := fun f w => ((Status.OK, logFile), w ++ ["create " ++ f])
  newAppendableFile := fun f w => ((Status.OK, logFile), w ++ ["appendable " ++ f])
  fileExists := fun _ w => (false, w)
  getChildren := fun _ w => ((Status.OK, []), w)
  deleteFile := fun f w => (Status.OK, w ++ ["delete " ++ f])
  createDir := fun _ w => (Status.OK, w)
  deleteDir := fun _ w => (Status.OK, w)
  getFileSize := fun _ w => ((Status.OK, 0), w)
  renameFile := fun _ _ w => (Status.OK, w)
  lockFile := fun _ w => ((Status.OK, 0), w)
  unlockFile := fun _ w => (Status.OK, w)
  schedule := fun _ _ w => w
  startThread := fun _ _ w => w
  getTestDirectory := fun w => ((Status.OK, "tmp"), w)
  newLogger := fun _ w => ((Status.OK, ⟨fun _ w => w⟩), w)
  nowMicros := fun w => (0, w)
  sleepForMicroseconds := fun _ w => w

/-- C7: the default-constructed status and Status::OK() are ok and render
as the success marker "OK"; each factory among NotFound, Corruption,
NotSupported, InvalidArgument, IOError yields a non-ok status for which
exactly the corresponding Is-predicate holds, rendering as the kind name,
a colon, and the message fragments joined by the separator. -/
theorem status_contract :
    (Status.mk none).ok = true ∧ Status.OK.ok = true ∧
    Status.OK.ToString = "OK" ∧ (Status.mk none).ToString = "OK" ∧
    (∀ msg msg2 : String,
      (Status.NotFound msg msg2).ok = false ∧
      (Status.NotFound msg msg2).IsNotFound = true ∧
      (Status.NotFound msg msg2).IsCorruption = false ∧
      (Status.NotFound msg msg2).IsNotSupportedError = false ∧
      (Status.NotFound msg msg2).IsInvalidArgument = false ∧
      (Status.NotFound msg msg2).IsIOError = false ∧
      (Status.NotFound msg msg2).ToString = "NotFound" ++ ": " ++ joinFragments msg msg2) ∧
    (∀ msg msg2 : String,
      (Status.Corruption msg msg2).ok = false ∧
      (Status.Corruption msg msg2).IsCorruption = true ∧
      (Status.Corruption msg msg2).IsNotFound = false ∧
      (Status.Corruption msg msg2).IsNotSupportedError = false ∧
      (Status.Corruption msg msg2).IsInvalidArgument = false ∧
      (Status.Corruption msg msg2).IsIOError = false ∧
      (Status.Corruption msg msg2).ToString = "Corruption" ++ ": " ++ joinFragments msg msg2) ∧
    (∀ msg msg2 : String,
      (Status.NotSupported msg msg2).ok = false ∧
      (Status.NotSupported msg msg2).IsNotSupportedError = true ∧
      (Status.NotSupported msg msg2).IsNotFound = false ∧
      (Status.NotSupported msg msg2).IsCorruption = false ∧
      (Status.NotSupported msg msg2).IsInvalidArgument = false ∧
      (Status.NotSupported msg msg2).IsIOError = false ∧
      (Status.NotSupported msg msg2).ToString = "NotSupported" ++ ": " ++ joinFragments msg msg2) ∧
    (∀ msg msg2 : String,
      (Status.InvalidArgument msg msg2).ok = false ∧
      (Status.InvalidArgument msg msg2).IsInvalidArgument = true ∧
      (Status.InvalidArgument msg msg2).IsNotFound = false ∧
      (Status.InvalidArgument msg msg2).IsCorruption = false ∧
      (Status.InvalidArgument msg msg2).IsNotSupportedError = false ∧
      (Status.InvalidArgument msg msg2).IsIOError = false ∧
      (Status.InvalidArgument msg msg2).ToString = "InvalidArgument" ++ ": " ++ joinFragments msg msg2) ∧
    (∀ msg msg2 : String,
      (Status.IOError msg msg2).ok = false ∧
      (Status.IOError msg msg2).IsIOError = true ∧
      (Status.IOError msg msg2).IsNotFound = false ∧
      (Status.IOError msg msg2).IsCorruption = false ∧
      (Status.IOError msg msg2).IsNotSupportedError = false ∧
      (Status.IOError msg msg2).IsInvalidArgument = false ∧
      (Status.IOError msg msg2).ToString = "IOError" ++ ": " ++ joinFragments msg msg2) := by
  refine ⟨rfl, rfl, rfl, rfl, ?_, ?_, ?_, ?_, ?_⟩ <;>
    exact fun msg msg2 => ⟨rfl, rfl, rfl, rfl, rfl, rfl, rfl⟩

/-- C8: the base-class default Env::NewAppendableFile returns a status
that is not ok, for which IsNotSupportedError holds, and produces no file
handle. -/
theorem newAppendableFileDefault_notSupported :
    ∀ fname : String,
      (envNewAppendableFileDefault fname).1.ok = false ∧
      (envNewAppendableFileDefault fname).1.IsNotSupportedError = true ∧
      (envNewAppendableFileDefault fname).2 = none :=
  fun _ => ⟨rfl, rfl, rfl⟩

/-- C9: every operation of the Env interface invoked on EnvWrapper(t)
equals the same operation invoked on t (same results, same effects on the
abstract world and out-parameter values), and target() returns t. -/
theorem envWrapper_forwards {ω : Type} (t : Env ω) :
    (EnvWrapper.mk t).target = t ∧
    (EnvWrapper.mk t).toEnv.newSequentialFile = t.newSequentialFile ∧
    (EnvWrapper.mk t).toEnv.newRandomAccessFile = t.newRandomAccessFile ∧
    (EnvWrapper.mk t).toEnv.newWritableFile = t.newWritableFile ∧
    (EnvWrapper.mk t).toEnv.newAppendableFile = t.newAppendableFile ∧
    (EnvWrapper.mk t).toEnv.fileExists = t.fileExists ∧
    (EnvWrapper.mk t).toEnv.getChildren = t.getChildren ∧
    (EnvWrapper.mk t).toEnv.deleteFile = t.deleteFile ∧
    (EnvWrapper.mk t).toEnv.createDir = t.createDir ∧
    (EnvWrapper.mk t).toEnv.deleteDir = t.deleteDir ∧
    (EnvWrapper.mk t).toEnv.getFileSize = t.getFileSize ∧
    (EnvWrapper.mk t).toEnv.renameFile = t.renameFile ∧
    (EnvWrapper.mk t).toEnv.lockFile = t.lockFile ∧
    (EnvWrapper.mk t).toEnv.unlockFile = t.unlockFile ∧
    (EnvWrapper.mk t).toEnv.schedule = t.schedule ∧
    (EnvWrapper.mk t).toEnv.startThread = t.startThread ∧
    (EnvWrapper.mk t).toEnv.getTestDirectory = t.getTestDirectory ∧
    (EnvWrapper.mk t).toEnv.newLogger = t.newLogger ∧
    (EnvWrapper.mk t).toEnv.nowMicros = t.nowMicros ∧
    (EnvWrapper.mk t).toEnv.sleepForMicroseconds = t.sleepForMicroseconds :=
  ⟨rfl, rfl, rfl, rfl, rfl, rfl, rfl, rfl, rfl, rfl,
   rfl, rfl, rfl, rfl, rfl, rfl, rfl, rfl, rfl, rfl⟩

/-- C10: WriteStringToFile and WriteStringToFileSync return the status of
the first failing step among create, append, (sync when requested), close;
when creation succeeds but a later step fails, the named file is deleted
before returning; when every step succeeds the result is ok with no
delete; and the Sync variant differs only in performing the Sync step
between Append and Close. -/
theorem writeStringToFile_contract {ω : Type} (env : Env ω) (data : List Nat)
    (fname : String) (should_sync : Bool) (w : ω) :
    (WriteStringToFile env data fname w = DoWriteStringToFile env data fname false w) ∧
    (WriteStringToFileSync env data fname w = DoWriteStringToFile env data fname true w) ∧
    (∀ s1 file w1, env.newWritableFile fname w = ((s1, file), w1) →
      (s1.ok = false → DoWriteStringToFile env data fname should_sync w = (s1, w1)) ∧
      (∀ s2 w2, file.append data w1 = (s2, w2) →
        (s1.ok = true → s2.ok = false →
          DoWriteStringToFile env data fname should_sync w =
            (s2, (env.deleteFile fname w2).2)) ∧
        (∀ ss ws, file.sync w2 = (ss, ws) →
          (s1.ok = true → s2.ok = true → should_sync = true → ss.ok = false →
            DoWriteStringToFile env data fname should_sync w =
              (ss, (env.deleteFile fname ws).2)) ∧
          (∀ wmid, wmid = (if should_sync then ws else w2) →
            ∀ sc wc, file.close wmid = (sc, wc) →
              s1.ok = true → s2.ok = true → (should_sync = true → ss.ok = true) →
              (sc.ok = false →
                DoWriteStringToFile env data fname should_sync w =
                  (sc, (env.deleteFile fname wc).2)) ∧
              (sc.ok = true →
                DoWriteStringToFile env data fname should_sync w = (sc, wc)))))) := by
  refine ⟨rfl, rfl, ?_⟩
  intro s1 file w1 h1
  constructor
  · intro hs1
    simp [DoWriteStringToFile, h1, hs1]
  intro s2 w2 h2
  constructor
  · intro hs1 hs2
    simp [DoWriteStringToFile, h1, h2, hs1, hs2]
  intro ss ws hs
  constructor
  · intro hs1 hs2 hsync hss
    simp [DoWriteStringToFile, h1, h2, hs, hs1, hs2, hsync, hss]
  intro wmid hmid sc wc hc hs1 hs2 hssok
  cases should_sync with
  | false =>
    subst hmid
    constructor
    · intro hsc
      simp [DoWriteStringToFile, h1, h2, hc, hs1, hs2, hsc]
    · intro hsc
      simp [DoWriteStringToFile, h1, h2, hc, hs1, hs2, hsc]
  | true =>
    have hss := hssok rfl
    subst hmid
    constructor
    · intro hsc
      simp [DoWriteStringToFile, h1, h2, hs, hc, hs1, hs2, hss, hsc]
    · intro hsc
      simp [DoWriteStringToFile, h1, h2, hs, hc, hs1, hs2, hss, hsc]

/-- Witness for C10: running the sync variant of the write helper against
the concrete logging Env performs create, append, sync, close in order and
returns ok without deleting. -/
theorem writeStringToFile_contract_witness :
    DoWriteStringToFile logEnv [1] "f" true [] =
      (Status.OK, ["create " ++ "f", "append", "sync", "close"]) := by
  have h := writeStringToFile_contract logEnv [1] "f" true []
  have h3 := h.2.2 Status.OK logFile ["create " ++ "f"] rfl
  have h4 := h3.2 Status.OK ["create " ++ "f", "append"] rfl
  have h5 := h4.2 Status.OK ["create " ++ "f", "append", "sync"] rfl
  have h6 := h5.2 ["create " ++ "f", "append", "sync"] rfl Status.OK
      ["create " ++ "f", "append", "sync", "close"] rfl rfl rfl (fun _ => rfl)
  exact h6.2 rfl

/-- Modelled from the spec: base-128 little-endian varint encoding (7
value bits per byte, high bit = continuation), emitting at most `fuel`
bytes; the PutVarint32 coding helper of util/coding.cc is not in src. -/
def putVarintAux : Nat → Nat → List Nat
  | 0, n => [n % 128]
  | fuel + 1, n =>
    if n < 128 then [n] else (n % 128 + 128) :: putVarintAux fuel (n / 128)

/-- Modelled from the spec: PutVarint32; 5 bytes cover every 32-bit
value. -/
def putVarint32 (n : Nat) : List Nat :=
  putVarintAux 5 n

/-- Modelled from the spec: varint decoder limited to `fuel` bytes (5 for
32-bit varints, the maximal encodable width); yields the value and the
number of bytes consumed, or none when the input ends early or the width
is exceeded (a malformed varint). -/
def getVarintFuel : List Nat → Nat → Option (Nat × Nat)
  | _, 0 => none
  | [], _ + 1 => none
  | b :: rest, fuel + 1 =>
    if b < 128 then some (b, 1)
    else
      match getVarintFuel rest fuel with
      | none => none
      | some (v, c) => some (b - 128 + 128 * v, c + 1)

/-- Modelled from the spec: GetVarint32, decoding at most 5 bytes. -/
def getVarint32 (bs : List Nat) : Option (Nat × Nat) :=
  getVarintFuel bs 5

theorem putVarintAux_ne_nil (fuel n : Nat) : putVarintAux fuel n ≠ [] := by
  cases fuel with
  | zero => simp [putVarintAux]
  | succ f =>
    rw [putVarintAux]
    split <;> simp

theorem putVarint32_ne_nil (n : Nat) : putVarint32 n ≠ [] :=
  putVarintAux_ne_nil 5 n

theorem getVarintFuel_put :
    ∀ (fuel n : Nat) (rest : List Nat), n < 128 ^ fuel → 1 ≤ fuel →
      getVarintFuel (putVarintAux fuel n ++ rest) fuel =
        some (n, (putVarintAux fuel n).length) := by
  intro fuel
  induction fuel with
  | zero => intro n rest _ h1; omega
  | succ f ih =>
    intro n rest h _
    by_cases hn : n < 128
    · rw [putVarintAux, if_pos hn]
      simp [getVarintFuel, hn]
    · rw [putVarintAux, if_neg hn]
      have hf : 1 ≤ f := by
        rcases Nat.eq_zero_or_pos f with hf0 | hf0
        · subst hf0; simp at h; omega
        · exact hf0
      have hdiv : n / 128 < 128 ^ f := by
        have hlt : n < 128 ^ f * 128 := by
          have : (128 : Nat) ^ (f + 1) = 128 ^ f * 128 := pow_succ 128 f
          omega
        exact (Nat.div_lt_iff_lt_mul (by omega)).mpr hlt
      have ihr := ih (n / 128) rest hdiv hf
      have hb : ¬ (n % 128 + 128 < 128) := by omega
      simp only [List.cons_append, getVarintFuel, if_neg hb]
      have ihr2 : getVarintFuel ((putVarintAux f (n / 128)).append rest) f =
          some (n / 128, (putVarintAux f (n / 128)).length) := ihr
      rw [ihr2]
      simp
      omega

theorem getVarint32_put (n : Nat) (rest : List Nat) (h : n < 2 ^ 32) :
    getVarint32 (putVarint32 n ++ rest) = some (n, (putVarint32 n).length) := by
  have h5 : (128 : Nat) ^ 5 = 34359738368 := by norm_num
  exact getVarintFuel_put 5 n rest (by omega) (by omega)

theorem getVarintFuel_consumed :
    ∀ (fuel : Nat) (bs : List Nat) (v c : Nat),
      getVarintFuel bs fuel = some (v, c) → 1 ≤ c ∧ c ≤ bs.length := by
  intro fuel
  induction fuel with
  | zero => intro bs v c h; simp [getVarintFuel] at h
  | succ f ih =>
    intro bs v c h
    match bs with
    | [] => simp [getVarintFuel] at h
    | b :: rest =>
      simp only [getVarintFuel] at h
      by_cases hb : b < 128
      · rw [if_pos hb] at h
        injection h with h
        injection h with _ h2
        simp [← h2]
      · rw [if_neg hb] at h
        cases hg : getVarintFuel rest f with
        | none => rw [hg] at h; exact absurd h (by simp)
        | some p =>
          obtain ⟨v0, c0⟩ := p
          rw [hg] at h
          injection h with h
          injection h with _ h2
          have hc0 := ih rest v0 c0 hg
          simp only [List.length_cons]
          omega

/-- Modelled from the spec: 4-byte little-endian fixed-width encoding used
for the restart array and count (the PutFixed32 helper of util/coding.cc
is not in src). -/
def putFixed32 (n : Nat) : List Nat :=
  [n % 256, n / 256 % 256, n / 65536 % 256, n / 16777216 % 256]

/-- Modelled from the spec: reads a 4-byte little-endian value; none when
fewer than 4 bytes remain. -/
def decodeFixed32 : List Nat → Option Nat
  | a :: b :: c :: d :: _ => some (a + 256 * b + 65536 * c + 16777216 * d)
  | _ => none

theorem putFixed32_length (n : Nat) : (putFixed32 n).length = 4 := rfl

theorem decodeFixed32_put (n : Nat) (rest : List Nat) (h : n < 2 ^ 32) :
    decodeFixed32 (putFixed32 n ++ rest) = some n := by
  simp only [putFixed32, List.cons_append, List.nil_append, decodeFixed32,
    Option.some.injEq]
  omega

/-- Modelled from the spec: the restart array appended by Finish, each
offset as fixed32, in order. -/
def putRestarts : List Nat → List Nat
  | [] => []
  | r :: rs => putFixed32 r ++ putRestarts rs

theorem putRestarts_length (rs : List Nat) :
    (putRestarts rs).length = 4 * rs.length := by
  induction rs with
  | nil => rfl
  | cons r rs ih => simp [putRestarts, putFixed32_length, ih]; omega

/-- Options fields read by the block layer (include/leveldb/options.h is
not in src): the restart interval; the key comparator is modelled as the
default bytewise comparator `byteCompare` below. -/
structure Options where
  block_restart_interval : Nat

/-- Modelled from the spec: the default bytewise key comparator supplying
the total key order of Options. -/
def byteCompare : List Nat → List Nat → Ordering
  | [], [] => Ordering.eq
  | [], _ :: _ => Ordering.lt
  | _ :: _, [] => Ordering.gt
  | a :: as, b :: bs =>
    if a < b then Ordering.lt
    else if b < a then Ordering.gt
    else byteCompare as bs

/-- State of BlockBuilder as declared in src/unnamed/part_000: destination
buffer, restart points, entry counter since the last restart, finished
flag, last added key. -/
structure BlockBuilder where
  buffer : List Nat
  restarts : List Nat
  counter : Nat
  finished : Bool
  last_key : List Nat
deriving Repr, DecidableEq

/-- Modelled from the spec: a freshly constructed (or Reset) builder has
an empty buffer, no restart points, zero counter, cleared finished flag
and empty last-key state; the first Add records the first restart point. -/
def BlockBuilder.init : BlockBuilder :=
  ⟨[], [], 0, false, []⟩

/-- Modelled from the spec: Reset clears everything, as if newly
constructed. -/
def BlockBuilder.Reset (_b : BlockBuilder) : BlockBuilder :=
  BlockBuilder.init

/-- Longest common prefix length of two byte strings, the shared key part
computed by Add. -/
def lcpLen : List Nat → List Nat → Nat
  | a :: as, b :: bs => if a = b then lcpLen as bs + 1 else 0
  | _, _ => 0

theorem lcpLen_le_left (a b : List Nat) : lcpLen a b ≤ a.length := by
  induction a generalizing b with
  | nil => simp [lcpLen]
  | cons x xs ih =>
    cases b with
    | nil => simp [lcpLen]
    | cons y ys =>
      simp only [lcpLen, List.length_cons]
      split
      · exact Nat.succ_le_succ (ih ys)
      · omega

theorem lcpLen_le_right (a b : List Nat) : lcpLen a b ≤ b.length := by
  induction a generalizing b with
  | nil => simp [lcpLen]
  | cons x xs ih =>
    cases b with
    | nil => simp [lcpLen]
    | cons y ys =>
      simp only [lcpLen, List.length_cons]
      split
      · exact Nat.succ_le_succ (ih ys)
      · omega

theorem lcpLen_take_eq (a b : List Nat) :
    a.take (lcpLen a b) = b.take (lcpLen a b) := by
  induction a generalizing b with
  | nil => simp [lcpLen]
  | cons x xs ih =>
    cases b with
    | nil => simp [lcpLen]
    | cons y ys =>
      simp only [lcpLen]
      split
      · next heq => simp [List.take_succ_cons, heq, ih ys]
      · simp

/-- Modelled from the spec: one encoded entry: varint shared length,
varint unshared length, varint value length, then the unshared key suffix
bytes and the value bytes. -/
def encodeEntry (shared : Nat) (key value : List Nat) : List Nat :=
  putVarint32 shared ++ putVarint32 (key.length - shared) ++
    putVarint32 value.length ++ List.drop shared key ++ value

theorem encodeEntry_ne_nil (shared : Nat) (key value : List Nat) :
    encodeEntry shared key value ≠ [] := by
  intro h
  simp only [encodeEntry, List.append_eq_nil] at h
  exact putVarint32_ne_nil shared h.1.1.1.1

/-- Modelled from the spec: BlockBuilder::Add (body not in src): a restart
is forced for the first entry of the block and whenever the counter has
reached the restart interval; a restart entry uses shared length 0 and its
buffer offset is recorded, resetting the counter; otherwise the shared
length is the longest common prefix with the last added key; the entry is
appended and the last-key state updated. -/
def BlockBuilder.Add (opts : Options) (b : BlockBuilder)
    (key value : List Nat) : BlockBuilder :=
  let isRestart := b.restarts.isEmpty || opts.block_restart_interval ≤ b.counter
  let shared := if isRestart then 0 else lcpLen key b.last_key
  { buffer := b.buffer ++ encodeEntry shared key value
    restarts := if isRestart then b.restarts ++ [b.buffer.length] else b.restarts
    counter := if isRestart then 1 else b.counter + 1
    finished := b.finished
    last_key := key }

/-- Modelled from the spec: BlockBuilder::Finish (body not in src):
appends each restart offset as fixed32 followed by the fixed32 restart
count and sets the finished flag; the returned slice is the whole buffer. -/
def BlockBuilder.Finish (b : BlockBuilder) : BlockBuilder :=
  { b with
    buffer := b.buffer ++ putRestarts b.restarts ++ putFixed32 b.restarts.length
    finished := true }

/-- Modelled from the spec: CurrentSizeEstimate (body not in src): the
size the block would occupy if finished now: the buffer bytes plus four
bytes per restart point plus the four-byte count. -/
def BlockBuilder.CurrentSizeEstimate (b : BlockBuilder) : Nat :=
  b.buffer.length + 4 * b.restarts.length + 4

/-- Embeds BlockBuilder::empty() from src/unnamed/part_000: true iff the
destination buffer is empty. -/
def BlockBuilder.empty (b : BlockBuilder) : Bool :=
  b.buffer.isEmpty

/-- Folds Add over a list of key/value pairs, in order. -/
def BlockBuilder.addAll (opts : Options) (b : BlockBuilder) :
    List (List Nat × List Nat) → BlockBuilder
  | [] => b
  | (k, v) :: es => BlockBuilder.addAll opts (b.Add opts k v) es

/-- One builder API call, for stating properties over arbitrary call
sequences. -/
inductive BuilderOp where
  | add (key value : List Nat)
  | finish
  | reset

/-- Runs a sequence of builder API calls. -/
def runOps (opts : Options) (b : BlockBuilder) : List BuilderOp → BlockBuilder
  | [] => b
  | BuilderOp.add k v :: ops => runOps opts (b.Add opts k v) ops
  | BuilderOp.finish :: ops => runOps opts b.Finish ops
  | BuilderOp.reset :: ops => runOps opts b.Reset ops

/-- Whether, after starting from a state where the flag is `start`, no Add
and no Finish has occurred since the last Reset of the call sequence. -/
def noAddFinishSinceReset (start : Bool) : List BuilderOp → Bool
  | [] => start
  | BuilderOp.add _ _ :: ops => noAddFinishSinceReset false ops
  | BuilderOp.finish :: ops => noAddFinishSinceReset false ops
  | BuilderOp.reset :: ops => noAddFinishSinceReset true ops

theorem empty_add (opts : Options) (b : BlockBuilder) (k v : List Nat) :
    (b.Add opts k v).empty = false := by
  have h := encodeEntry_ne_nil (if b.restarts.isEmpty ||
    opts.block_restart_interval ≤ b.counter then 0 else lcpLen k b.last_key) k v
  simp only [BlockBuilder.Add, BlockBuilder.empty]
  rcases hb : b.buffer with _ | ⟨x, xs⟩
  · simpa [List.isEmpty_iff] using h
  · simp

theorem empty_finish (b : BlockBuilder) : b.Finish.empty = false := by
  simp only [BlockBuilder.Finish, BlockBuilder.empty]
  have : putFixed32 b.restarts.length ≠ [] := by simp [putFixed32]
  simp [List.isEmpty_iff, this]

theorem empty_runOps (opts : Options) :
    ∀ (ops : List BuilderOp) (b : BlockBuilder),
      (runOps opts b ops).empty = noAddFinishSinceReset b.empty ops := by
  intro ops
  induction ops with
  | nil => intro b; rfl
  | cons op ops ih =>
    intro b
    cases op with
    | add k v =>
      simp only [runOps, noAddFinishSinceReset, ih, empty_add]
    | finish =>
      simp only [runOps, noAddFinishSinceReset, ih, empty_finish]
    | reset =>
      simp only [runOps, noAddFinishSinceReset, ih]
      rfl

/-- C6 counterexample: calling Finish on a builder with zero Adds makes
empty() return false, although no Add has occurred since construction
(Finish writes the trailer into the buffer that empty() inspects). -/
theorem empty_after_finish_counterexample :
    BlockBuilder.init.Finish.empty = false := by decide

/-- C6 amended: empty() is true iff no Add and also no Finish has occurred
since construction or the last Reset. -/
theorem empty_iff_no_add_or_finish (opts : Options) (ops : List BuilderOp) :
    (runOps opts BlockBuilder.init ops).empty = noAddFinishSinceReset true ops :=
  empty_runOps opts ops BlockBuilder.init

/-- C5: CurrentSizeEstimate never decreases across an Add, and its value
immediately before Finish equals the byte length of the slice Finish
returns (entries plus restart-array-and-count trailer). -/
theorem currentSizeEstimate_contract :
    (∀ (opts : Options) (b : BlockBuilder) (key value : List Nat),
      b.CurrentSizeEstimate ≤ (b.Add opts key value).CurrentSizeEstimate) ∧
    (∀ b : BlockBuilder, b.Finish.buffer.length = b.CurrentSizeEstimate) := by
  constructor
  · intro opts b key value
    simp only [BlockBuilder.Add, BlockBuilder.CurrentSizeEstimate,
      List.length_append]
    split <;> simp <;> omega
  · intro b
    simp [BlockBuilder.Finish, BlockBuilder.CurrentSizeEstimate,
      putRestarts_length, putFixed32]
    omega

/-- Invariant: every recorded restart offset points into the buffer at a
zero byte, the varint shared-length 0 of the entry encoded there. -/
def RestartsZeroInv (b : BlockBuilder) : Prop :=
  ∀ off ∈ b.restarts, ∃ t, b.buffer.drop off = 0 :: t

/-- Invariant relating the number of Adds performed since the last Reset
to the restart list length and the group counter. -/
def CountInv (r n : Nat) (b : BlockBuilder) : Prop :=
  (n = 0 → b.restarts = [] ∧ b.counter = 0) ∧
  (1 ≤ n → ∃ g, b.restarts.length = g + 1 ∧ 1 ≤ b.counter ∧
    b.counter ≤ r ∧ n = g * r + b.counter)

theorem restartsZeroInv_init : RestartsZeroInv BlockBuilder.init := by
  intro off hoff
  simp [BlockBuilder.init] at hoff

theorem countInv_init (r : Nat) : CountInv r 0 BlockBuilder.init := by
  constructor
  · intro _; exact ⟨rfl, rfl⟩
  · intro h; omega

/-- The Bool restart condition evaluated by Add. -/
def addIsRestart (opts : Options) (b : BlockBuilder) : Bool :=
  b.restarts.isEmpty || opts.block_restart_interval ≤ b.counter

/-- The shared-prefix length chosen by Add. -/
def addShared (opts : Options) (b : BlockBuilder) (key : List Nat) : Nat :=
  if addIsRestart opts b then 0 else lcpLen key b.last_key

theorem add_buffer (opts : Options) (b : BlockBuilder) (k v : List Nat) :
    (b.Add opts k v).buffer =
      b.buffer ++ encodeEntry (addShared opts b k) k v := rfl

theorem add_restarts (opts : Options) (b : BlockBuilder) (k v : List Nat) :
    (b.Add opts k v).restarts =
      if addIsRestart opts b then b.restarts ++ [b.buffer.length]
      else b.restarts := rfl

theorem add_counter (opts : Options) (b : BlockBuilder) (k v : List Nat) :
    (b.Add opts k v).counter =
      if addIsRestart opts b then 1 else b.counter + 1 := rfl

theorem add_last_key (opts : Options) (b : BlockBuilder) (k v : List Nat) :
    (b.Add opts k v).last_key = k := rfl

theorem drop_append_zero_cons (buf e : List Nat) (off : Nat) (t : List Nat)
    (ht : buf.drop off = 0 :: t) : ∃ u, (buf ++ e).drop off = 0 :: u := by
  have hlt : off ≤ buf.length := by
    by_contra hgt
    rw [List.drop_eq_nil_of_le (by omega)] at ht
    exact List.noConfusion ht
  refine ⟨t ++ e, ?_⟩
  rw [List.drop_append_of_le_length hlt, ht]
  rfl

theorem encodeEntry_zero_head (k v : List Nat) :
    ∃ u, encodeEntry 0 k v = 0 :: u := by
  simp only [encodeEntry]
  rw [putVarint32]
  exact ⟨_, rfl⟩

theorem restartsZeroInv_add (opts : Options) (b : BlockBuilder)
    (k v : List Nat) (h : RestartsZeroInv b) :
    RestartsZeroInv (b.Add opts k v) := by
  intro off hoff
  rw [add_restarts] at hoff
  rw [add_buffer]
  by_cases hres : addIsRestart opts b = true
  · rw [if_pos hres] at hoff
    rcases List.mem_append.mp hoff with hin | hnew
    · obtain ⟨t, ht⟩ := h off hin
      exact drop_append_zero_cons _ _ _ _ ht
    · have hoffeq : off = b.buffer.length := by simpa using hnew
      subst hoffeq
      rw [List.drop_append_of_le_length (le_refl _), List.drop_length,
        List.nil_append]
      have hsh : addShared opts b k = 0 := by simp [addShared, hres]
      rw [hsh]
      exact encodeEntry_zero_head k v
  · rw [if_neg hres] at hoff
    obtain ⟨t, ht⟩ := h off hoff
    exact drop_append_zero_cons _ _ _ _ ht

theorem countInv_add (opts : Options) (hr : 1 ≤ opts.block_restart_interval)
    (b : BlockBuilder) (n : Nat) (k v : List Nat)
    (h : CountInv opts.block_restart_interval n b) :
    CountInv opts.block_restart_interval (n + 1) (b.Add opts k v) := by
  obtain ⟨h0, h1⟩ := h
  constructor
  · intro hcontra; omega
  · intro _
    rcases Nat.eq_zero_or_pos n with hn0 | hn1
    · subst hn0
      obtain ⟨hre, hco⟩ := h0 rfl
      have hres : addIsRestart opts b = true := by
        simp [addIsRestart, hre]
      refine ⟨0, ?_, ?_, ?_, ?_⟩
      · rw [add_restarts, if_pos hres, hre]
        rfl
      · rw [add_counter, if_pos hres]
      · rw [add_counter, if_pos hres]; exact hr
      · rw [add_counter, if_pos hres]; omega
    · obtain ⟨g, hL, hc1, hcr, hn⟩ := h1 hn1
      have hne : b.restarts ≠ [] := by
        intro h0'
        rw [h0'] at hL
        simp at hL
      have hempty : b.restarts.isEmpty = false := by
        simpa [List.isEmpty_iff] using hne
      by_cases hcnt : opts.block_restart_interval ≤ b.counter
      · have hres : addIsRestart opts b = true := by
          simp [addIsRestart, hempty, hcnt]
        have hceq : b.counter = opts.block_restart_interval := by omega
        have hmul : (g + 1) * opts.block_restart_interval =
            g * opts.block_restart_interval + opts.block_restart_interval :=
          Nat.succ_mul g opts.block_restart_interval
        refine ⟨g + 1, ?_, ?_, ?_, ?_⟩
        · rw [add_restarts, if_pos hres]
          simp [hL]
        · rw [add_counter, if_pos hres]
        · rw [add_counter, if_pos hres]; exact hr
        · rw [add_counter, if_pos hres]
          omega
      · have hres : addIsRestart opts b = false := by
          simp [addIsRestart, hempty, hcnt]
        refine ⟨g, ?_, ?_, ?_, ?_⟩
        · rw [add_restarts, if_neg (by simp [hres])]
          exact hL
        · rw [add_counter, if_neg (by simp [hres])]
          omega
        · rw [add_counter, if_neg (by simp [hres])]
          omega
        · rw [add_counter, if_neg (by simp [hres])]
          omega

theorem addAll_inv (opts : Options) (hr : 1 ≤ opts.block_restart_interval) :
    ∀ (es : List (List Nat × List Nat)) (b : BlockBuilder) (n : Nat),
      CountInv opts.block_restart_interval n b → RestartsZeroInv b →
      CountInv opts.block_restart_interval (n + es.length)
        (BlockBuilder.addAll opts b es) ∧
      RestartsZeroInv (BlockBuilder.addAll opts b es) := by
  intro es
  induction es with
  | nil => intro b n hc hz; exact ⟨by simpa using hc, hz⟩
  | cons e es ih =>
    intro b n hc hz
    obtain ⟨k, v⟩ := e
    have hc1 := countInv_add opts hr b n k v hc
    have hz1 := restartsZeroInv_add opts b k v hz
    have := ih (b.Add opts k v) (n + 1) hc1 hz1
    constructor
    · have heq : n + 1 + es.length = n + (es.length + 1) := by omega
      rw [heq] at this
      simpa using this.1
    · exact this.2

/-- C3: after the n Adds of a strictly increasing key sequence under
restart interval r ≥ 1, the restart-point count (also the fixed32 count
recorded at the end of the Finish trailer) equals ceil(n / r) — 0 when
n = 0 — and the entry encoded at every recorded restart offset has
shared_bytes = 0. -/
theorem restart_density (opts : Options) (hr : 1 ≤ opts.block_restart_interval)
    (es : List (List Nat × List Nat)) (hn : es.length < 2 ^ 32)
    (_hsorted : List.Chain' (fun p q => byteCompare p.1 q.1 = Ordering.lt) es) :
    (BlockBuilder.addAll opts BlockBuilder.init es).restarts.length =
      (es.length + opts.block_restart_interval - 1) /
        opts.block_restart_interval ∧
    (∀ off ∈ (BlockBuilder.addAll opts BlockBuilder.init es).restarts,
      (getVarint32
        ((BlockBuilder.addAll opts BlockBuilder.init es).buffer.drop off)).map
          Prod.fst = some 0) ∧
    decodeFixed32
      ((BlockBuilder.addAll opts BlockBuilder.init es).Finish.buffer.drop
        ((BlockBuilder.addAll opts BlockBuilder.init es).Finish.buffer.length - 4)) =
      some (BlockBuilder.addAll opts BlockBuilder.init es).restarts.length := by
  obtain ⟨hc, hz⟩ := addAll_inv opts hr es BlockBuilder.init 0
    (countInv_init _) restartsZeroInv_init
  set b := BlockBuilder.addAll opts BlockBuilder.init es with hb
  have hcount : b.restarts.length =
      (es.length + opts.block_restart_interval - 1) /
        opts.block_restart_interval := by
    rcases Nat.eq_zero_or_pos es.length with h0 | h1
    · obtain ⟨hre, _⟩ := hc.1 (by omega)
      rw [hre, h0]
      simp
      exact (Nat.div_eq_of_lt (by omega)).symm
    · obtain ⟨g, hL, hc1, hcr, hneq⟩ := hc.2 (by omega)
      rw [hL]
      have hx : es.length + opts.block_restart_interval - 1 =
          (b.counter + opts.block_restart_interval - 1) +
            opts.block_restart_interval * g := by
        have := Nat.mul_comm g opts.block_restart_interval
        omega
      rw [hx, Nat.add_mul_div_left _ _ (by omega)]
      have hdiv1 : (b.counter + opts.block_restart_interval - 1) /
          opts.block_restart_interval = 1 := by
        have hlow : 1 ≤ (b.counter + opts.block_restart_interval - 1) /
            opts.block_restart_interval :=
          (Nat.le_div_iff_mul_le (by omega)).mpr (by omega)
        have hhigh : (b.counter + opts.block_restart_interval - 1) /
            opts.block_restart_interval < 2 :=
          Nat.div_lt_of_lt_mul (by omega)
        omega
      omega
  refine ⟨hcount, ?_, ?_⟩
  · intro off hoff
    obtain ⟨t, ht⟩ := hz off hoff
    rw [ht]
    simp [getVarint32, getVarintFuel]
  · have hLle : b.restarts.length < 2 ^ 32 := by
      rcases Nat.eq_zero_or_pos es.length with h0 | h1
      · obtain ⟨hre, _⟩ := hc.1 (by omega)
        rw [hre]; simp
      · obtain ⟨g, hL, hc1, hcr, hneq⟩ := hc.2 (by omega)
        have : g + 1 ≤ es.length := by
          have hg : g * 1 ≤ g * opts.block_restart_interval :=
            Nat.mul_le_mul_left g hr
          omega
        omega
    simp only [BlockBuilder.Finish, List.length_append, putRestarts_length,
      putFixed32_length]
    have hdrop : b.buffer.length + 4 * b.restarts.length + 4 - 4 =
        (b.buffer ++ putRestarts b.restarts).length := by
      simp [putRestarts_length]
    rw [hdrop, List.drop_left]
    have := decodeFixed32_put b.restarts.length [] hLle
    simpa using this

/-- Witness for C3: interval 2 with three entries yields 2 restart points,
both decoding a zero shared length, and the trailer records the count. -/
theorem restart_density_witness :
    (1 ≤ (Options.mk 2).block_restart_interval) ∧
    ((BlockBuilder.addAll (Options.mk 2) BlockBuilder.init
        [([1], [7]), ([1, 2], [8]), ([2], [9])]).restarts.length =
      (3 + 2 - 1) / 2) := by
  have h := restart_density (Options.mk 2) (by decide)
    [([1], [7]), ([1, 2], [8]), ([2], [9])] (by decide)
    (by simp [List.chain'_cons]; decide)
  exact ⟨by decide, h.1⟩

/-- Modelled from the spec: decoding one entry of the entry region at
offset `off` against the previously reconstructed key: read three varints
(shared, unshared, value length); fail (none) on a malformed varint, a
shared length exceeding the previous key, or a byte range exceeding the
remaining entry region; otherwise return the reconstructed key (shared
prefix of the previous key plus the unshared suffix bytes), the value
bytes, and the offset just past the entry. -/
def decodeEntry (region : List Nat) (off : Nat) (prevKey : List Nat) :
    Option (List Nat × List Nat × Nat) :=
  let bs := region.drop off
  (getVarint32 bs).bind fun p1 =>
    (getVarint32 (bs.drop p1.2)).bind fun p2 =>
      (getVarint32 (bs.drop (p1.2 + p2.2))).bind fun p3 =>
        let hdr := p1.2 + p2.2 + p3.2
        if p1.1 ≤ prevKey.length ∧ hdr + p2.1 + p3.1 ≤ bs.length then
          some (prevKey.take p1.1 ++ (bs.drop hdr).take p2.1,
            (bs.drop (hdr + p2.1)).take p3.1,
            off + hdr + p2.1 + p3.1)
        else none

theorem drop_chunk2 (a b r : List Nat) :
    (a ++ (b ++ r)).drop (a.length + b.length) = r := by
  rw [← List.append_assoc, ← List.length_append, List.drop_left]

theorem drop_chunk3 (a b c r : List Nat) :
    (a ++ (b ++ (c ++ r))).drop (a.length + b.length + c.length) = r := by
  rw [← List.append_assoc, ← List.append_assoc, ← List.length_append,
    ← List.length_append, List.drop_left]

theorem decodeEntry_encode
    (pre suffix : List Nat) (shared : Nat) (key value prevKey : List Nat)
    (hsh : shared ≤ key.length) (hpk : shared ≤ prevKey.length)
    (hagree : prevKey.take shared = key.take shared)
    (hk : key.length < 2 ^ 32) (hv : value.length < 2 ^ 32) :
    decodeEntry (pre ++ (encodeEntry shared key value ++ suffix)) pre.length
      prevKey =
      some (key, value, pre.length + (encodeEntry shared key value).length) := by
  have hshlt : shared < 2 ^ 32 := by omega
  have huns : key.length - shared < 2 ^ 32 := by omega
  unfold decodeEntry
  have hbs : (pre ++ (encodeEntry shared key value ++ suffix)).drop pre.length
      = encodeEntry shared key value ++ suffix := List.drop_left pre _
  simp only [hbs]
  have hform : encodeEntry shared key value ++ suffix =
      putVarint32 shared ++ (putVarint32 (key.length - shared) ++
        (putVarint32 value.length ++ (List.drop shared key ++ (value ++ suffix)))) := by
    simp [encodeEntry, List.append_assoc]
  rw [hform]
  rw [getVarint32_put shared _ hshlt]
  simp only [Option.some_bind]
  rw [List.drop_left]
  rw [getVarint32_put (key.length - shared) _ huns]
  simp only [Option.some_bind]
  rw [drop_chunk2]
  rw [getVarint32_put value.length _ hv]
  simp only [Option.some_bind]
  rw [drop_chunk3]
  have hlen : (putVarint32 shared ++ (putVarint32 (key.length - shared) ++
      (putVarint32 value.length ++ (List.drop shared key ++ (value ++ suffix))))).length =
      (putVarint32 shared).length + (putVarint32 (key.length - shared)).length +
        (putVarint32 value.length).length + (key.length - shared) +
        value.length + suffix.length := by
    simp [List.length_append, List.length_drop]
    omega
  have hcond : shared ≤ prevKey.length ∧
      (putVarint32 shared).length + (putVarint32 (key.length - shared)).length +
        (putVarint32 value.length).length + (key.length - shared) + value.length ≤
      (putVarint32 shared ++ (putVarint32 (key.length - shared) ++
        (putVarint32 value.length ++ (List.drop shared key ++ (value ++ suffix))))).length := by
    constructor
    · exact hpk
    · rw [hlen]; omega
  rw [if_pos hcond]
  have htk : ((List.drop shared key ++ (value ++ suffix)).take (key.length - shared))
      = List.drop shared key :=
    List.take_left' (by simp [List.length_drop])
  rw [htk]
  have hkey : prevKey.take shared ++ List.drop shared key = key := by
    rw [hagree, List.take_append_drop]
  have hdropmore :
      (putVarint32 shared ++ (putVarint32 (key.length - shared) ++
        (putVarint32 value.length ++ (List.drop shared key ++ (value ++ suffix))))).drop
        ((putVarint32 shared).length + (putVarint32 (key.length - shared)).length +
          (putVarint32 value.length).length + (key.length - shared)) =
      value ++ suffix := by
    have hre : putVarint32 shared ++ (putVarint32 (key.length - shared) ++
        (putVarint32 value.length ++ (List.drop shared key ++ (value ++ suffix)))) =
        (putVarint32 shared ++ putVarint32 (key.length - shared) ++
          putVarint32 value.length ++ List.drop shared key) ++ (value ++ suffix) := by
      simp [List.append_assoc]
    rw [hre]
    refine List.drop_left' ?_
    simp only [List.length_append, List.length_drop]
  rw [hdropmore]
  have hval : (value ++ suffix).take value.length = value := List.take_left value suffix
  rw [hval, hkey]
  have hencl : (encodeEntry shared key value).length =
      (putVarint32 shared).length + (putVarint32 (key.length - shared)).length +
        (putVarint32 value.length).length + (key.length - shared) + value.length := by
    simp [encodeEntry, List.length_append, List.length_drop]
    omega
  rw [hencl]
  congr 2
  congr 1
  omega

theorem decodeEntry_none_of_oob (region : List Nat) (off : Nat)
    (prevKey : List Nat) (h : region.length ≤ off) :
    decodeEntry region off prevKey = none := by
  unfold decodeEntry
  rw [List.drop_eq_nil_of_le h]
  rfl

theorem decodeEntry_bounds (region : List Nat) (off : Nat)
    (prevKey k v : List Nat) (nxt : Nat)
    (h : decodeEntry region off prevKey = some (k, v, nxt)) :
    off < region.length ∧ off + 3 ≤ nxt ∧ nxt ≤ region.length := by
  simp only [decodeEntry] at h
  cases h1 : getVarint32 (region.drop off) with
  | none => rw [h1] at h; exact absurd h (by simp)
  | some p1 =>
    rw [h1] at h
    simp only [Option.some_bind] at h
    cases h2 : getVarint32 ((region.drop off).drop p1.2) with
    | none => rw [h2] at h; exact absurd h (by simp)
    | some p2 =>
      rw [h2] at h
      simp only [Option.some_bind] at h
      cases h3 : getVarint32 ((region.drop off).drop (p1.2 + p2.2)) with
      | none => rw [h3] at h; exact absurd h (by simp)
      | some p3 =>
        rw [h3] at h
        simp only [Option.some_bind] at h
        by_cases hcond : p1.1 ≤ prevKey.length ∧
            p1.2 + p2.2 + p3.2 + p2.1 + p3.1 ≤ (region.drop off).length
        · rw [if_pos hcond] at h
          injection h with h
          have hc1 := getVarintFuel_consumed 5 _ _ _ h1
          have hc2 := getVarintFuel_consumed 5 _ _ _ h2
          have hc3 := getVarintFuel_consumed 5 _ _ _ h3
          have hlen : (region.drop off).length = region.length - off :=
            List.length_drop off region
          have hnxt : nxt = off + (p1.2 + p2.2 + p3.2) + p2.1 + p3.1 := by
            have := congrArg (fun q : List Nat × List Nat × Nat => q.2.2) h
            simpa using this.symm
          have hoff : off < region.length := by
            rcases Nat.lt_or_ge off region.length with hlt | hge
            · exact hlt
            · exfalso
              rw [List.drop_eq_nil_of_le hge] at h1
              simp [getVarint32, getVarintFuel] at h1
          refine ⟨hoff, by omega, by omega⟩
        · rw [if_neg hcond] at h
          exact absurd h (by simp)

/-- The entries of region `R` decode one after the other from offset
`off` against previous key `pk` to exactly the list `l`, finishing exactly
at the end of the region. -/
inductive DecodesTo (R : List Nat) : Nat → List Nat → List (List Nat × List Nat) → Prop where
  | nil (pk : List Nat) : DecodesTo R R.length pk []
  | cons (off : Nat) (pk k v : List Nat) (nxt : Nat)
      (l : List (List Nat × List Nat))
      (hd : decodeEntry R off pk = some (k, v, nxt))
      (rest : DecodesTo R nxt k l) :
      DecodesTo R off pk ((k, v) :: l)

/-- Sequential decoding from `off`, reconstructing keys as it goes,
stopping at the end of the entry region, at a decode failure, or when the
fuel runs out. -/
def decodeSeq (region : List Nat) :
    Nat → Nat → List Nat → List (List Nat × List Nat)
  | 0, _, _ => []
  | fuel + 1, off, prevKey =>
    if region.length ≤ off then []
    else
      match decodeEntry region off prevKey with
      | none => []
      | some (k, v, nxt) => (k, v) :: decodeSeq region fuel nxt k

theorem decodeSeq_of_decodesTo (R : List Nat) :
    ∀ (l : List (List Nat × List Nat)) (off : Nat) (pk : List Nat)
      (fuel : Nat),
      DecodesTo R off pk l → l.length < fuel →
      decodeSeq R fuel off pk = l := by
  intro l
  induction l with
  | nil =>
    intro off pk fuel h hfuel
    cases h with
    | nil =>
      cases fuel with
      | zero => omega
      | succ f => simp [decodeSeq]
  | cons e l ih =>
    intro off pk fuel h hfuel
    cases h with
    | cons _ _ k v nxt _ hd rest =>
      cases fuel with
      | zero => omega
      | succ f =>
        obtain ⟨hofflt, -, -⟩ := decodeEntry_bounds R off pk k v nxt hd
        have hnle : ¬ R.length ≤ off := by omega
        simp only [decodeSeq, if_neg hnle, hd]
        rw [ih nxt k f rest (by simp only [List.length_cons] at hfuel; omega)]

theorem addAll_buffer_pre (opts : Options) :
    ∀ (es : List (List Nat × List Nat)) (b : BlockBuilder),
      ∃ t, (BlockBuilder.addAll opts b es).buffer = b.buffer ++ t := by
  intro es
  induction es with
  | nil => intro b; exact ⟨[], by simp [BlockBuilder.addAll]⟩
  | cons e es ih =>
    intro b
    obtain ⟨k, v⟩ := e
    obtain ⟨t, ht⟩ := ih (b.Add opts k v)
    refine ⟨encodeEntry (addShared opts b k) k v ++ t, ?_⟩
    show (BlockBuilder.addAll opts (b.Add opts k v) es).buffer = _
    rw [ht, add_buffer, List.append_assoc]

/-- The starting previous key is adequate for the first entry that addAll
will append from builder state `b`: it agrees on the shared prefix the
builder will choose and is long enough. -/
def GoodPrev (opts : Options) (b : BlockBuilder) (pk : List Nat) :
    List (List Nat × List Nat) → Prop
  | [] => True
  | (k, _) :: _ =>
      pk.take (addShared opts b k) = k.take (addShared opts b k) ∧
      addShared opts b k ≤ pk.length

theorem goodPrev_last_key (opts : Options) (b : BlockBuilder)
    (es : List (List Nat × List Nat)) : GoodPrev opts b b.last_key es := by
  cases es with
  | nil => trivial
  | cons e es =>
    obtain ⟨k, v⟩ := e
    constructor
    · unfold addShared
      split
      · simp
      · exact (lcpLen_take_eq k b.last_key).symm
    · unfold addShared
      split
      · simp
      · exact lcpLen_le_right k b.last_key

theorem goodPrev_of_restart (opts : Options) (b : BlockBuilder)
    (pk : List Nat) (es : List (List Nat × List Nat))
    (h : addIsRestart opts b = true) : GoodPrev opts b pk es := by
  cases es with
  | nil => trivial
  | cons e es =>
    obtain ⟨k, v⟩ := e
    have hsh : addShared opts b k = 0 := by simp [addShared, h]
    constructor <;> simp [hsh]

theorem goodPrev_next (opts : Options) (b : BlockBuilder) (k v : List Nat)
    (es : List (List Nat × List Nat)) :
    GoodPrev opts (b.Add opts k v) k es := by
  cases es with
  | nil => trivial
  | cons e2 es2 =>
    obtain ⟨k2, v2⟩ := e2
    constructor
    · unfold addShared
      split
      · simp
      · rw [add_last_key]
        exact (lcpLen_take_eq k2 k).symm
    · unfold addShared
      split
      · simp
      · rw [add_last_key]
        exact lcpLen_le_right k2 k

theorem addShared_le_key (opts : Options) (b : BlockBuilder) (k : List Nat) :
    addShared opts b k ≤ k.length := by
  unfold addShared
  split
  · omega
  · exact lcpLen_le_left k b.last_key

theorem chainFrom (opts : Options) :
    ∀ (es : List (List Nat × List Nat)) (b : BlockBuilder) (pk : List Nat),
      (∀ p ∈ es, p.1.length < 2 ^ 32 ∧ p.2.length < 2 ^ 32) →
      GoodPrev opts b pk es →
      DecodesTo (BlockBuilder.addAll opts b es).buffer b.buffer.length pk es := by
  intro es
  induction es with
  | nil =>
    intro b pk _ _
    exact DecodesTo.nil pk
  | cons e es ih =>
    intro b pk hsz hgp
    obtain ⟨k, v⟩ := e
    obtain ⟨t, ht⟩ := addAll_buffer_pre opts es (b.Add opts k v)
    obtain ⟨hag, hpk⟩ := hgp
    have hsz1 := hsz (k, v) (by simp)
    have hR : (BlockBuilder.addAll opts b ((k, v) :: es)).buffer =
        b.buffer ++ (encodeEntry (addShared opts b k) k v ++ t) := by
      show (BlockBuilder.addAll opts (b.Add opts k v) es).buffer = _
      rw [ht, add_buffer, List.append_assoc]
    have hd : decodeEntry (BlockBuilder.addAll opts b ((k, v) :: es)).buffer
        b.buffer.length pk =
        some (k, v, b.buffer.length +
          (encodeEntry (addShared opts b k) k v).length) := by
      rw [hR]
      exact decodeEntry_encode b.buffer t (addShared opts b k) k v pk
        (addShared_le_key opts b k) hpk hag hsz1.1 hsz1.2
    refine DecodesTo.cons _ _ _ _ _ _ hd ?_
    have hnxt : b.buffer.length + (encodeEntry (addShared opts b k) k v).length
        = (b.Add opts k v).buffer.length := by
      rw [add_buffer, List.length_append]
    have hrest := ih (b.Add opts k v) k
      (fun p hp => hsz p (by simp [hp])) (goodPrev_next opts b k v es)
    rw [hnxt]
    exact hrest

/-- Modelled from the spec: the parsed form of a finished block: the
entry region bytes, the decoded restart offsets, and the restart count. -/
structure Block where
  region : List Nat
  restarts : List Nat
  numRestarts : Nat
deriving Repr, DecidableEq

/-- Modelled from the spec: read the restart array: `n` fixed32 offsets
starting at byte `base` (in-bounds by the trailer check of parseBlock). -/
def readRestartArray (data : List Nat) (base : Nat) (n : Nat) : List Nat :=
  (List.range n).map (fun i => (decodeFixed32 (data.drop (base + 4 * i))).getD 0)

/-- Modelled from the spec: parse a block trailer: the last 4 bytes are
the restart count, the `n` fixed32 offsets before it the restart array,
everything before that the entry region; malformed (none) when the block
is shorter than 4 bytes, when the restart-array bounds fall outside the
entry region, or when a restart offset lies outside the entry region
(detected as early as possible, at trailer parse). -/
def parseBlock (data : List Nat) : Option Block :=
  if data.length < 4 then none
  else
    (decodeFixed32 (data.drop (data.length - 4))).bind fun n =>
      if 4 + 4 * n ≤ data.length then
        if (readRestartArray data (data.length - 4 - 4 * n) n).all
            (fun off => decide (off < data.length - 4 - 4 * n)) then
          some ⟨data.take (data.length - 4 - 4 * n),
            readRestartArray data (data.length - 4 - 4 * n) n, n⟩
        else none
      else none

theorem putRestarts_drop (C : List Nat) :
    ∀ (rs : List Nat) (i : Nat), i ≤ rs.length →
      (putRestarts rs ++ C).drop (4 * i) = putRestarts (rs.drop i) ++ C := by
  intro rs
  induction rs with
  | nil =>
    intro i hi
    have : i = 0 := by simpa using hi
    subst this
    simp
  | cons r rs ih =>
    intro i hi
    cases i with
    | zero => simp
    | succ j =>
      have h4 : 4 * (j + 1) = 4 + 4 * j := by omega
      rw [h4]
      have hassoc : putRestarts (r :: rs) ++ C =
          putFixed32 r ++ (putRestarts rs ++ C) := by
        show putFixed32 r ++ putRestarts rs ++ C = _
        rw [List.append_assoc]
      rw [hassoc, ← List.drop_drop]
      rw [List.drop_left' (putFixed32_length r)]
      have hj : j ≤ rs.length := by
        simpa using Nat.le_of_succ_le_succ hi
      rw [ih j hj]
      rfl

theorem finish_buffer_length (b : BlockBuilder) :
    b.Finish.buffer.length = b.buffer.length + 4 * b.restarts.length + 4 := by
  simp [BlockBuilder.Finish, putRestarts_length, putFixed32_length]
  omega

theorem readRestartArray_finish (b : BlockBuilder)
    (hoffs : ∀ off ∈ b.restarts, off < b.buffer.length)
    (hbuf : b.buffer.length < 2 ^ 32) :
    readRestartArray b.Finish.buffer b.buffer.length b.restarts.length =
      b.restarts := by
  apply List.ext_getElem
  · simp [readRestartArray]
  intro i h1 h2
  simp only [readRestartArray, List.getElem_map, List.getElem_range]
  have hilt : i < b.restarts.length := h2
  have hdrop : b.Finish.buffer.drop (b.buffer.length + 4 * i)
      = putRestarts (b.restarts.drop i) ++ putFixed32 b.restarts.length := by
    show (b.buffer ++ putRestarts b.restarts ++
      putFixed32 b.restarts.length).drop (b.buffer.length + 4 * i) = _
    rw [List.append_assoc, ← List.drop_drop, List.drop_left]
    exact putRestarts_drop _ _ i (by omega)
  rw [hdrop, List.drop_eq_getElem_cons hilt]
  show (decodeFixed32 (putFixed32 (b.restarts[i]) ++ _)).getD 0 = _
  have hmem : b.restarts[i] ∈ b.restarts := List.getElem_mem hilt
  rw [decodeFixed32_put _ _ (by have := hoffs _ hmem; omega)]
  rfl

theorem parseBlock_finish (b : BlockBuilder)
    (hoffs : ∀ off ∈ b.restarts, off < b.buffer.length)
    (hbuf : b.buffer.length < 2 ^ 32)
    (hnum : b.restarts.length < 2 ^ 32) :
    parseBlock b.Finish.buffer =
      some ⟨b.buffer, b.restarts, b.restarts.length⟩ := by
  have hlen := finish_buffer_length b
  unfold parseBlock
  rw [if_neg (by omega)]
  have hdropC : b.Finish.buffer.drop (b.Finish.buffer.length - 4) =
      putFixed32 b.restarts.length := by
    show (b.buffer ++ putRestarts b.restarts ++
      putFixed32 b.restarts.length).drop (b.Finish.buffer.length - 4) = _
    have hl : b.Finish.buffer.length - 4 =
        (b.buffer ++ putRestarts b.restarts).length := by
      simp [putRestarts_length]
      omega
    rw [hl, List.drop_left]
  rw [hdropC]
  have hdec : decodeFixed32 (putFixed32 b.restarts.length) =
      some b.restarts.length := by
    have := decodeFixed32_put b.restarts.length [] hnum
    simpa using this
  rw [hdec]
  simp only [Option.some_bind]
  have hbase : b.Finish.buffer.length - 4 - 4 * b.restarts.length =
      b.buffer.length := by omega
  rw [if_pos (by omega), hbase, readRestartArray_finish b hoffs hbuf]
  have hall : b.restarts.all (fun off => decide (off < b.buffer.length)) = true := by
    rw [List.all_eq_true]
    intro off hoff
    simpa using hoffs off hoff
  rw [if_pos hall]
  have htake : b.Finish.buffer.take b.buffer.length = b.buffer := by
    show (b.buffer ++ putRestarts b.restarts ++
      putFixed32 b.restarts.length).take b.buffer.length = _
    rw [List.append_assoc]
    exact List.take_left b.buffer _
  rw [htake]

theorem addAll_restarts_le (opts : Options) :
    ∀ (es : List (List Nat × List Nat)) (b : BlockBuilder),
      (BlockBuilder.addAll opts b es).restarts.length ≤
        b.restarts.length + es.length := by
  intro es
  induction es with
  | nil => intro b; simp [BlockBuilder.addAll]
  | cons e es ih =>
    intro b
    obtain ⟨k, v⟩ := e
    have h1 := ih (b.Add opts k v)
    have h2 : (b.Add opts k v).restarts.length ≤ b.restarts.length + 1 := by
      rw [add_restarts]
      split <;> simp
    show (BlockBuilder.addAll opts (b.Add opts k v) es).restarts.length ≤ _
    simp only [List.length_cons]
    omega

theorem addAll_zeroInv (opts : Options) :
    ∀ (es : List (List Nat × List Nat)) (b : BlockBuilder),
      RestartsZeroInv b → RestartsZeroInv (BlockBuilder.addAll opts b es) := by
  intro es
  induction es with
  | nil => intro b h; exact h
  | cons e es ih =>
    intro b h
    obtain ⟨k, v⟩ := e
    exact ih (b.Add opts k v) (restartsZeroInv_add opts b k v h)

theorem zeroInv_offsets (b : BlockBuilder) (h : RestartsZeroInv b) :
    ∀ off ∈ b.restarts, off < b.buffer.length := by
  intro off hoff
  obtain ⟨t, ht⟩ := h off hoff
  by_contra hge
  rw [List.drop_eq_nil_of_le (by omega)] at ht
  exact List.noConfusion ht

/-- Modelled from the spec: block iterator state: parsed block, validity
flag, current entry offset, offset just past the current entry, the
reconstructed key, the value bytes, and the iterator status. -/
structure BlockIter where
  block : Block
  valid : Bool
  current : Nat
  nextOff : Nat
  key : List Nat
  value : List Nat
  status : Status
deriving Repr, DecidableEq

/-- Modelled from the spec: meeting corruption records a Corruption-kind
status, clears the cursor and moves the iterator to Invalid. -/
def BlockIter.corrupt (it : BlockIter) : BlockIter :=
  { it with
    valid := false
    key := []
    value := []
    status := Status.Corruption "bad entry in block" "" }

/-- Modelled from the spec: the error iterator produced over bytes whose
trailer is malformed: Invalid, carrying a Corruption status that every
operation keeps. -/
def errorIter : BlockIter :=
  { block := ⟨[], [], 0⟩
    valid := false
    current := 0
    nextOff := 0
    key := []
    value := []
    status := Status.Corruption "bad block contents" "" }

/-- Modelled from the spec: creating an iterator over block bytes: a
malformed trailer yields the error iterator carrying a Corruption status;
otherwise an Invalid iterator with ok status, positioned before the
entries. -/
def newIterator (data : List Nat) : BlockIter :=
  match parseBlock data with
  | some blk =>
      { block := blk
        valid := false
        current := 0
        nextOff := 0
        key := []
        value := []
        status := Status.OK }
  | none => errorIter

/-- The freshly created ok iterator over a parsed block. -/
def mkOkIter (blk : Block) : BlockIter :=
  { block := blk
    valid := false
    current := 0
    nextOff := 0
    key := []
    value := []
    status := Status.OK }

theorem mkOkIter_status (blk : Block) : (mkOkIter blk).status = Status.OK :=
  rfl

/-- Modelled from the spec: decode the entry at `off` against `prevKey`
and position the iterator on it; corruption on decode failure. -/
def BlockIter.parseAt (it : BlockIter) (off : Nat) (prevKey : List Nat) :
    BlockIter :=
  match decodeEntry it.block.region off prevKey with
  | none => it.corrupt
  | some (k, v, nxt) =>
      { it with
        valid := true
        current := off
        nextOff := nxt
        key := k
        value := v }

/-- Modelled from the spec: SeekToFirst decodes the entry at offset 0
(shared length 0 there), or is Invalid on an empty block; an operation on
an error iterator keeps its status and stays Invalid. -/
def BlockIter.seekToFirst (it : BlockIter) : BlockIter :=
  if it.status.ok = false then it
  else if it.block.region.length = 0 then { it with valid := false }
  else it.parseAt 0 []

/-- Modelled from the spec: Next decodes the entry immediately following
the current one against the current key; Invalid with ok status at the end
of the entry region. -/
def BlockIter.next (it : BlockIter) : BlockIter :=
  if it.status.ok = false then it
  else if it.valid = false then it
  else if it.block.region.length ≤ it.nextOff then { it with valid := false }
  else it.parseAt it.nextOff it.key

/-- Modelled from the spec: decode the entry at restart index `i` (shared
length is always 0 there, so no previous key is needed) to obtain its
key. -/
def restartKey (blk : Block) (i : Nat) : Option (List Nat × List Nat × Nat) :=
  decodeEntry blk.region (blk.restarts.getD i 0) []

/-- Modelled from the spec: binary search over the restart array for the
greatest restart index in [lo, hi] whose key is ≤ target (ties broken
toward the restart itself), defaulting to lo when every inspected key is
greater; none when decoding a restart entry fails. -/
def binSearchRestarts (blk : Block) (target : List Nat) :
    Nat → Nat → Nat → Option Nat
  | 0, lo, _ => some lo
  | fuel + 1, lo, hi =>
    if hi ≤ lo then some lo
    else
      (restartKey blk ((lo + hi + 1) / 2)).bind fun p =>
        if byteCompare p.1 target = Ordering.gt then
          binSearchRestarts blk target fuel lo ((lo + hi + 1) / 2 - 1)
        else binSearchRestarts blk target fuel ((lo + hi + 1) / 2) hi

/-- Modelled from the spec: the linear scan of Seek: from a restart point,
decode entries sequentially (updating the running key) until the decoded
key is ≥ target; Valid on the first such entry, Invalid when the entry
region is exhausted, Corruption on any decode failure. -/
def BlockIter.seekScan (target : List Nat) :
    Nat → BlockIter → Nat → List Nat → BlockIter
  | 0, it, _, _ => it.corrupt
  | fuel + 1, it, off, prevKey =>
    if off = it.block.region.length then { it with valid := false }
    else
      match decodeEntry it.block.region off prevKey with
      | none => it.corrupt
      | some (k, v, nxt) =>
        if byteCompare k target = Ordering.lt then
          BlockIter.seekScan target fuel it nxt k
        else
          { it with
            valid := true
            current := off
            nextOff := nxt
            key := k
            value := v }

/-- Modelled from the spec: Seek(target): binary search over the restart
array for the greatest restart whose key is ≤ target, then scan from that
restart for the first entry with key ≥ target; Invalid when no entry
qualifies; Corruption when decoding meets damage. -/
def BlockIter.seek (it : BlockIter) (target : List Nat) : BlockIter :=
  if it.status.ok = false then it
  else if it.block.numRestarts = 0 then { it with valid := false }
  else
    match binSearchRestarts it.block target it.block.numRestarts 0
        (it.block.numRestarts - 1) with
    | none => it.corrupt
    | some idx =>
      BlockIter.seekScan target (it.block.region.length + 1) it
        (it.block.restarts.getD idx 0) []

/-- Modelled from the spec: the forward scan of SeekToLast: decode from
the last restart point to the last entry before the end of the entry
region. -/
def BlockIter.lastScan : Nat → BlockIter → Nat → List Nat → BlockIter
  | 0, it, _, _ => it.corrupt
  | fuel + 1, it, off, prevKey =>
    match decodeEntry it.block.region off prevKey with
    | none => it.corrupt
    | some (k, v, nxt) =>
      if it.block.region.length ≤ nxt then
        { it with
          valid := true
          current := off
          nextOff := nxt
          key := k
          value := v }
      else BlockIter.lastScan fuel it nxt k

/-- Modelled from the spec: SeekToLast jumps to the last restart point and
decodes forward to the last entry; Invalid on an empty block. -/
def BlockIter.seekToLast (it : BlockIter) : BlockIter :=
  if it.status.ok = false then it
  else if it.block.numRestarts = 0 then { it with valid := false }
  else
    BlockIter.lastScan (it.block.region.length + 1) it
      (it.block.restarts.getD (it.block.numRestarts - 1) 0) []

/-- Modelled from the spec: the restart point strictly before the current
position, from which Prev re-decodes forward. -/
def largestRestartBefore (rs : List Nat) (cur : Nat) : Option Nat :=
  (rs.filter (fun off => decide (off < cur))).getLast?

/-- Modelled from the spec: the forward re-decode of Prev: from a restart
before the current entry, decode forward caching the entry until the one
immediately preceding the current position. -/
def BlockIter.prevScan : Nat → BlockIter → Nat → List Nat → BlockIter
  | 0, it, _, _ => it.corrupt
  | fuel + 1, it, off, prevKey =>
    match decodeEntry it.block.region off prevKey with
    | none => it.corrupt
    | some (k, v, nxt) =>
      if it.current ≤ nxt then
        { it with
          valid := true
          current := off
          nextOff := nxt
          key := k
          value := v }
      else BlockIter.prevScan fuel it nxt k

/-- Modelled from the spec: Prev requires Valid; Invalid when already at
the first entry, else re-decode forward from the restart point before the
current position to the entry immediately preceding it. -/
def BlockIter.prev (it : BlockIter) : BlockIter :=
  if it.status.ok = false then it
  else if it.valid = false then it
  else
    match largestRestartBefore it.block.restarts it.current with
    | none => { it with valid := false }
    | some off0 => BlockIter.prevScan (it.block.region.length + 1) it off0 []

/-- Collect the key/value pairs visited by repeated Next while Valid. -/
def BlockIter.collect : Nat → BlockIter → List (List Nat × List Nat)
  | 0, _ => []
  | fuel + 1, it =>
    if it.valid then (it.key, it.value) :: BlockIter.collect fuel it.next
    else []

/-- The observation SeekToFirst; Next; Next; ... on block bytes. -/
def blockToList (data : List Nat) (fuel : Nat) : List (List Nat × List Nat) :=
  BlockIter.collect fuel (newIterator data).seekToFirst

theorem collect_invalid (fuel : Nat) (it : BlockIter) (h : it.valid = false) :
    BlockIter.collect fuel it = [] := by
  cases fuel with
  | zero => rfl
  | succ f => simp [BlockIter.collect, h]

theorem collect_parseAt (blk : Block) :
    ∀ (fuel : Nat) (it : BlockIter) (off : Nat) (pk : List Nat),
      it.block = blk → it.status = Status.OK →
      BlockIter.collect fuel (it.parseAt off pk) =
        decodeSeq blk.region fuel off pk := by
  intro fuel
  induction fuel with
  | zero => intro it off pk _ _; rfl
  | succ f ih =>
    intro it off pk hblk hst
    cases hd : decodeEntry blk.region off pk with
    | none =>
      have hpa : it.parseAt off pk = it.corrupt := by
        unfold BlockIter.parseAt
        rw [hblk, hd]
      rw [hpa]
      have hval : it.corrupt.valid = false := rfl
      rw [collect_invalid _ _ hval]
      rw [decodeSeq]
      split
      · rfl
      · rw [hd]
    | some p =>
      obtain ⟨k, v, nxt⟩ := p
      obtain ⟨hofflt, -, -⟩ := decodeEntry_bounds blk.region off pk k v nxt hd
      have hpa : it.parseAt off pk =
          { it with
            valid := true
            current := off
            nextOff := nxt
            key := k
            value := v } := by
        unfold BlockIter.parseAt
        rw [hblk, hd]
      rw [hpa]
      rw [decodeSeq, if_neg (by omega), hd]
      simp only [BlockIter.collect, if_pos rfl]
      refine congrArg (List.cons (k, v)) ?_
      set it1 : BlockIter :=
        { it with
          valid := true
          current := off
          nextOff := nxt
          key := k
          value := v } with hit1
      have hst1 : it1.status = Status.OK := hst
      have hok1 : it1.status.ok = true := by rw [hst1]; rfl
      show BlockIter.collect f it1.next = decodeSeq blk.region f nxt k
      unfold BlockIter.next
      rw [hok1]
      simp only [Bool.true_eq_false, if_false, hit1]
      by_cases hend : blk.region.length ≤ nxt
      · rw [if_pos (by simpa [hblk] using hend)]
        rw [collect_invalid _ _ rfl]
        cases f with
        | zero => rfl
        | succ f2 =>
          rw [decodeSeq, if_pos hend]
      · rw [if_neg (by simpa [hblk] using hend)]
        exact ih _ nxt k hblk hst

theorem decodesTo_cons_inv (R : List Nat) (off : Nat) (pk k v : List Nat)
    (l : List (List Nat × List Nat))
    (h : DecodesTo R off pk ((k, v) :: l)) :
    ∃ nxt, decodeEntry R off pk = some (k, v, nxt) ∧ DecodesTo R nxt k l := by
  cases h with
  | cons _ _ _ _ nxt _ hd rest => exact ⟨nxt, hd, rest⟩

/-- C1: building a block from any strictly increasing key sequence and
iterating it with SeekToFirst then repeated Next reproduces exactly the
original key/value pairs, in order. -/
theorem block_roundtrip (opts : Options) (es : List (List Nat × List Nat))
    (hsorted : List.Chain' (fun p q => byteCompare p.1 q.1 = Ordering.lt) es)
    (hsz : ∀ p ∈ es, p.1.length < 2 ^ 32 ∧ p.2.length < 2 ^ 32)
    (hbuf : (BlockBuilder.addAll opts BlockBuilder.init es).buffer.length < 2 ^ 32)
    (hn : es.length < 2 ^ 32) :
    blockToList (BlockBuilder.addAll opts BlockBuilder.init es).Finish.buffer
      (es.length + 1) = es := by
  set b := BlockBuilder.addAll opts BlockBuilder.init es with hbdef
  have hzero : RestartsZeroInv b :=
    addAll_zeroInv opts es BlockBuilder.init restartsZeroInv_init
  have hoffs := zeroInv_offsets b hzero
  have hnum : b.restarts.length < 2 ^ 32 := by
    have h1 := addAll_restarts_le opts es BlockBuilder.init
    rw [← hbdef] at h1
    have h2 : BlockBuilder.init.restarts.length = 0 := rfl
    omega
  have hparse := parseBlock_finish b hoffs hbuf hnum
  unfold blockToList
  have hni : newIterator b.Finish.buffer =
      mkOkIter ⟨b.buffer, b.restarts, b.restarts.length⟩ := by
    unfold newIterator
    rw [hparse]
    rfl
  rw [hni]
  have hchain : DecodesTo b.buffer 0 [] es := by
    have hgp : GoodPrev opts BlockBuilder.init [] es :=
      goodPrev_of_restart opts BlockBuilder.init [] es rfl
    have := chainFrom opts es BlockBuilder.init [] hsz hgp
    simpa using this
  have hstok : ¬ ((mkOkIter ⟨b.buffer, b.restarts,
      b.restarts.length⟩).status.ok = false) := by
    rw [mkOkIter_status]
    decide
  by_cases hre : b.buffer.length = 0
  · have hes0 : es = [] := by
      cases hesx : es with
      | nil => rfl
      | cons e es2 =>
        rw [hesx] at hchain
        obtain ⟨k, v⟩ := e
        obtain ⟨nxt, hd, -⟩ := decodesTo_cons_inv _ _ _ _ _ _ hchain
        exact absurd (decodeEntry_bounds _ _ _ _ _ _ hd).1 (by omega)
    subst hes0
    have hsf : (mkOkIter ⟨b.buffer, b.restarts,
        b.restarts.length⟩).seekToFirst =
        mkOkIter ⟨b.buffer, b.restarts, b.restarts.length⟩ := by
      unfold BlockIter.seekToFirst
      rw [if_neg hstok, if_pos (by simpa using hre)]
      rfl
    rw [hsf, collect_invalid _ _ rfl]
  · have hsf : (mkOkIter ⟨b.buffer, b.restarts,
        b.restarts.length⟩).seekToFirst =
        (mkOkIter ⟨b.buffer, b.restarts, b.restarts.length⟩).parseAt 0 [] := by
      unfold BlockIter.seekToFirst
      rw [if_neg hstok, if_neg (by simpa using hre)]
    rw [hsf, collect_parseAt ⟨b.buffer, b.restarts, b.restarts.length⟩ _ _ 0 []
      rfl rfl]
    exact decodeSeq_of_decodesTo b.buffer es 0 [] (es.length + 1) hchain
      (by omega)

/-- A forward decode chain from `(off, pk)` that reaches a failing entry
decode before any intermediate next-offset attains the bound `B` (the
point at which a forward re-decode would stop instead of decoding
further): the damage category a forward re-decode walks into. -/
inductive ReachesBadBefore (R : List Nat) (B : Nat) :
    Nat → List Nat → Prop where
  | here (off : Nat) (pk : List Nat)
      (hd : decodeEntry R off pk = none) : ReachesBadBefore R B off pk
  | step (off : Nat) (pk k v : List Nat) (nxt : Nat)
      (hd : decodeEntry R off pk = some (k, v, nxt)) (hlt : nxt < B)
      (rest : ReachesBadBefore R B nxt k) : ReachesBadBefore R B off pk

/-- A forward decode chain from `(off, pk)` whose decoded keys all compare
below `target`, ending at a failing entry decode strictly inside the entry
region: the damage category Seek's linear scan walks into. -/
inductive SeekHitsBad (R : List Nat) (target : List Nat) :
    Nat → List Nat → Prop where
  | here (off : Nat) (pk : List Nat) (hne : off ≠ R.length)
      (hd : decodeEntry R off pk = none) : SeekHitsBad R target off pk
  | step (off : Nat) (pk k v : List Nat) (nxt : Nat)
      (hd : decodeEntry R off pk = some (k, v, nxt))
      (hlt : byteCompare k target = Ordering.lt)
      (rest : SeekHitsBad R target nxt k) : SeekHitsBad R target off pk

theorem lastScan_corrupt (R : List Nat) :
    ∀ (off : Nat) (pk : List Nat), ReachesBadBefore R R.length off pk →
    ∀ (fuel : Nat) (it : BlockIter), it.block.region = R →
      BlockIter.lastScan fuel it off pk = it.corrupt := by
  intro off pk h
  induction h with
  | here off pk hd =>
    intro fuel it hreg
    cases fuel with
    | zero => rfl
    | succ f => simp only [BlockIter.lastScan, hreg, hd]
  | step off pk k v nxt hd hlt rest ih =>
    intro fuel it hreg
    cases fuel with
    | zero => rfl
    | succ f =>
      simp only [BlockIter.lastScan, hreg, hd]
      rw [if_neg (by omega)]
      exact ih f it hreg

theorem prevScan_corrupt (R : List Nat) (cur : Nat) :
    ∀ (off : Nat) (pk : List Nat), ReachesBadBefore R cur off pk →
    ∀ (fuel : Nat) (it : BlockIter), it.block.region = R →
      it.current = cur →
      BlockIter.prevScan fuel it off pk = it.corrupt := by
  intro off pk h
  induction h with
  | here off pk hd =>
    intro fuel it hreg hcur
    cases fuel with
    | zero => rfl
    | succ f => simp only [BlockIter.prevScan, hreg, hd]
  | step off pk k v nxt hd hlt rest ih =>
    intro fuel it hreg hcur
    cases fuel with
    | zero => rfl
    | succ f =>
      simp only [BlockIter.prevScan, hreg, hd]
      rw [if_neg (by omega)]
      exact ih f it hreg hcur

theorem seekScan_corrupt (R t : List Nat) :
    ∀ (off : Nat) (pk : List Nat), SeekHitsBad R t off pk →
    ∀ (fuel : Nat) (it : BlockIter), it.block.region = R →
      BlockIter.seekScan t fuel it off pk = it.corrupt := by
  intro off pk h
  induction h with
  | here off pk hne hd =>
    intro fuel it hreg
    cases fuel with
    | zero => rfl
    | succ f =>
      simp only [BlockIter.seekScan, hreg, hd]
      rw [if_neg hne]
  | step off pk k v nxt hd hlt rest ih =>
    intro fuel it hreg
    cases fuel with
    | zero => rfl
    | succ f =>
      have hb := decodeEntry_bounds R off pk k v nxt hd
      simp only [BlockIter.seekScan, hreg, hd]
      rw [if_neg (by omega), if_pos hlt]
      exact ih f it hreg

theorem seek_eq_scan (it : BlockIter) (t : List Nat) (idx : Nat)
    (hok : it.status.ok = true) (hne : it.block.numRestarts ≠ 0)
    (hbs : binSearchRestarts it.block t it.block.numRestarts 0
      (it.block.numRestarts - 1) = some idx) :
    it.seek t = BlockIter.seekScan t (it.block.region.length + 1) it
      (it.block.restarts.getD idx 0) [] := by
  unfold BlockIter.seek
  rw [hok]
  rw [if_neg (by decide), if_neg hne, hbs]

theorem seekToLast_eq_scan (it : BlockIter)
    (hok : it.status.ok = true) (hne : it.block.numRestarts ≠ 0) :
    it.seekToLast = BlockIter.lastScan (it.block.region.length + 1) it
      (it.block.restarts.getD (it.block.numRestarts - 1) 0) [] := by
  unfold BlockIter.seekToLast
  rw [hok]
  rw [if_neg (by decide), if_neg hne]

theorem prev_eq_scan (it : BlockIter) (off0 : Nat)
    (hok : it.status.ok = true) (hv : it.valid = true)
    (hlr : largestRestartBefore it.block.restarts it.current = some off0) :
    it.prev = BlockIter.prevScan (it.block.region.length + 1) it off0 [] := by
  unfold BlockIter.prev
  rw [hok, hv]
  rw [if_neg (by decide), if_neg (by decide), hlr]

/-- A positioned ok iterator over a one-entry region holding a truncated
varint, whose current position sits past the damaged restart entry. -/
def badPrevIter : BlockIter :=
  { block := ⟨[200], [0], 1⟩
    valid := true
    current := 1
    nextOff := 1
    key := []
    value := []
    status := Status.OK }

/-- C4: corruption handling. (1) Bytes whose trailer parse fails leave
every iterator operation (SeekToFirst, SeekToLast, Next, Prev, Seek) with
a Corruption-kind status and Invalid; (2) a block shorter than 4 bytes
fails the trailer parse; (3) restart-array bounds outside the entry
region fail the trailer parse; (4) a restart offset at or past the entry
region fails the trailer parse; (5) a decode failure at the first entry
makes SeekToFirst record Corruption and go Invalid; (6) a decode failure
at the following entry makes Next record Corruption and go Invalid; (7)
decoding at an offset at or past the entry region fails instead of
reading any byte beyond the block; (8) a restart-entry decode failure
during Seek's binary search makes Seek record Corruption and go Invalid;
(9) when Seek's linear scan from the chosen restart walks into a decode
failure (every key decoded before it comparing below the target), Seek
records Corruption and goes Invalid; (10) when SeekToLast's forward
re-decode from the last restart meets a decode failure before the region
end, SeekToLast records Corruption and goes Invalid; (11) when Prev's
forward re-decode from the restart before the current entry meets a
decode failure before the current position, Prev records Corruption and
goes Invalid. -/
theorem corruption_contract :
    (∀ data : List Nat, parseBlock data = none →
      ∀ t : List Nat,
        ((newIterator data).seekToFirst.status.IsCorruption = true ∧
          (newIterator data).seekToFirst.valid = false) ∧
        ((newIterator data).seekToLast.status.IsCorruption = true ∧
          (newIterator data).seekToLast.valid = false) ∧
        ((newIterator data).next.status.IsCorruption = true ∧
          (newIterator data).next.valid = false) ∧
        ((newIterator data).prev.status.IsCorruption = true ∧
          (newIterator data).prev.valid = false) ∧
        (((newIterator data).seek t).status.IsCorruption = true ∧
          ((newIterator data).seek t).valid = false)) ∧
    (∀ data : List Nat, data.length < 4 → parseBlock data = none) ∧
    (∀ (data : List Nat) (n : Nat),
      decodeFixed32 (data.drop (data.length - 4)) = some n →
      data.length < 4 + 4 * n → parseBlock data = none) ∧
    (∀ (data : List Nat) (n : Nat),
      decodeFixed32 (data.drop (data.length - 4)) = some n →
      (readRestartArray data (data.length - 4 - 4 * n) n).all
        (fun off => decide (off < data.length - 4 - 4 * n)) = false →
      parseBlock data = none) ∧
    (∀ (data : List Nat) (blk : Block), parseBlock data = some blk →
      blk.region.length ≠ 0 → decodeEntry blk.region 0 [] = none →
      (newIterator data).seekToFirst.status.IsCorruption = true ∧
      (newIterator data).seekToFirst.valid = false) ∧
    (∀ it : BlockIter, it.status.ok = true → it.valid = true →
      it.nextOff < it.block.region.length →
      decodeEntry it.block.region it.nextOff it.key = none →
      it.next.status.IsCorruption = true ∧ it.next.valid = false) ∧
    (∀ (region : List Nat) (off : Nat) (pk : List Nat),
      region.length ≤ off → decodeEntry region off pk = none) ∧
    (∀ (data : List Nat) (blk : Block) (t : List Nat),
      parseBlock data = some blk → blk.numRestarts ≠ 0 →
      binSearchRestarts blk t blk.numRestarts 0 (blk.numRestarts - 1) =
        none →
      ((newIterator data).seek t).status.IsCorruption = true ∧
      ((newIterator data).seek t).valid = false) ∧
    (∀ (data : List Nat) (blk : Block) (t : List Nat) (idx : Nat),
      parseBlock data = some blk → blk.numRestarts ≠ 0 →
      binSearchRestarts blk t blk.numRestarts 0 (blk.numRestarts - 1) =
        some idx →
      SeekHitsBad blk.region t (blk.restarts.getD idx 0) [] →
      ((newIterator data).seek t).status.IsCorruption = true ∧
      ((newIterator data).seek t).valid = false) ∧
    (∀ (data : List Nat) (blk : Block),
      parseBlock data = some blk → blk.numRestarts ≠ 0 →
      ReachesBadBefore blk.region blk.region.length
        (blk.restarts.getD (blk.numRestarts - 1) 0) [] →
      (newIterator data).seekToLast.status.IsCorruption = true ∧
      (newIterator data).seekToLast.valid = false) ∧
    (∀ (it : BlockIter) (off0 : Nat), it.status.ok = true →
      it.valid = true →
      largestRestartBefore it.block.restarts it.current = some off0 →
      ReachesBadBefore it.block.region it.current off0 [] →
      it.prev.status.IsCorruption = true ∧ it.prev.valid = false) := by
  refine ⟨?_, ?_, ?_, ?_, ?_, ?_, decodeEntry_none_of_oob, ?_, ?_, ?_, ?_⟩
  · intro data hparse t
    have herr : newIterator data = errorIter := by
      unfold newIterator
      rw [hparse]
    rw [herr]
    exact ⟨⟨rfl, rfl⟩, ⟨rfl, rfl⟩, ⟨rfl, rfl⟩, ⟨rfl, rfl⟩, ⟨rfl, rfl⟩⟩
  · intro data h
    unfold parseBlock
    rw [if_pos h]
  · intro data n hn hlt
    unfold parseBlock
    by_cases h4 : data.length < 4
    · rw [if_pos h4]
    · rw [if_neg h4, hn]
      simp only [Option.some_bind]
      rw [if_neg (by omega)]
  · intro data n hn hall
    unfold parseBlock
    by_cases h4 : data.length < 4
    · rw [if_pos h4]
    · rw [if_neg h4, hn]
      simp only [Option.some_bind]
      by_cases hb : 4 + 4 * n ≤ data.length
      · rw [if_pos hb, hall]
        rw [if_neg (by simp)]
      · rw [if_neg hb]
  · intro data blk hp hne hdec
    have hni : newIterator data = mkOkIter blk := by
      unfold newIterator
      rw [hp]
      rfl
    rw [hni]
    unfold BlockIter.seekToFirst
    rw [if_neg (by rw [mkOkIter_status]; decide), if_neg (by simpa using hne)]
    unfold BlockIter.parseAt
    have hdec2 : decodeEntry (mkOkIter blk).block.region 0 [] = none := hdec
    rw [hdec2]
    exact ⟨rfl, rfl⟩
  · intro it hok hv hlt hdec
    unfold BlockIter.next
    rw [hok, hv]
    rw [if_neg (by decide), if_neg (by decide), if_neg (by omega)]
    unfold BlockIter.parseAt
    rw [hdec]
    exact ⟨rfl, rfl⟩
  · intro data blk t hp hne hbs
    have hni : newIterator data = mkOkIter blk := by
      unfold newIterator
      rw [hp]
      rfl
    rw [hni]
    unfold BlockIter.seek
    rw [if_neg (by rw [mkOkIter_status]; decide), if_neg (by simpa using hne)]
    have hbs2 : binSearchRestarts (mkOkIter blk).block t
        (mkOkIter blk).block.numRestarts 0
        ((mkOkIter blk).block.numRestarts - 1) = none := hbs
    rw [hbs2]
    exact ⟨rfl, rfl⟩
  · intro data blk t idx hp hne hbs hbad
    have hni : newIterator data = mkOkIter blk := by
      unfold newIterator
      rw [hp]
      rfl
    have hbs2 : binSearchRestarts (mkOkIter blk).block t
        (mkOkIter blk).block.numRestarts 0
        ((mkOkIter blk).block.numRestarts - 1) = some idx := hbs
    rw [hni, seek_eq_scan (mkOkIter blk) t idx rfl hne hbs2]
    have hsc : BlockIter.seekScan t ((mkOkIter blk).block.region.length + 1)
        (mkOkIter blk) ((mkOkIter blk).block.restarts.getD idx 0) [] =
        (mkOkIter blk).corrupt :=
      seekScan_corrupt blk.region t _ _ hbad _ (mkOkIter blk) rfl
    rw [hsc]
    exact ⟨rfl, rfl⟩
  · intro data blk hp hne hbad
    have hni : newIterator data = mkOkIter blk := by
      unfold newIterator
      rw [hp]
      rfl
    rw [hni, seekToLast_eq_scan (mkOkIter blk) rfl hne]
    have hls : BlockIter.lastScan ((mkOkIter blk).block.region.length + 1)
        (mkOkIter blk)
        ((mkOkIter blk).block.restarts.getD
          ((mkOkIter blk).block.numRestarts - 1) 0) [] =
        (mkOkIter blk).corrupt :=
      lastScan_corrupt blk.region _ _ hbad _ (mkOkIter blk) rfl
    rw [hls]
    exact ⟨rfl, rfl⟩
  · intro it off0 hok hv hlr hbad
    rw [prev_eq_scan it off0 hok hv hlr]
    rw [prevScan_corrupt it.block.region it.current _ _ hbad _ it rfl rfl]
    exact ⟨rfl, rfl⟩

/-- Witness for C4: a 2-byte block fails the trailer parse and every
operation reports Corruption; a well-formed trailer whose single entry
holds a truncated varint makes SeekToFirst, Seek and SeekToLast report
Corruption, and Prev from a position past the damaged restart entry
reports Corruption. -/
theorem corruption_contract_witness :
    (([1, 2] : List Nat).length < 4 ∧ parseBlock [1, 2] = none ∧
      (newIterator [1, 2]).seekToFirst.status.IsCorruption = true ∧
      ((newIterator [1, 2]).seek [5]).valid = false) ∧
    (parseBlock [200, 0, 0, 0, 0, 1, 0, 0, 0] = some ⟨[200], [0], 1⟩ ∧
      decodeEntry [200] 0 [] = none ∧
      (newIterator [200, 0, 0, 0, 0, 1, 0, 0, 0]).seekToFirst.status.IsCorruption
        = true) ∧
    (((newIterator [200, 0, 0, 0, 0, 1, 0, 0, 0]).seek
        [5]).status.IsCorruption = true ∧
      (newIterator [200, 0, 0, 0, 0, 1, 0, 0, 0]).seekToLast.status.IsCorruption
        = true ∧
      badPrevIter.prev.status.IsCorruption = true ∧
      badPrevIter.prev.valid = false) := by
  have h := corruption_contract
  have h2 := h.2.1 [1, 2] (by decide)
  have h1 := h.1 [1, 2] h2 [5]
  have h5 := h.2.2.2.2.1 [200, 0, 0, 0, 0, 1, 0, 0, 0] ⟨[200], [0], 1⟩
    (by decide) (by decide) (by decide)
  have h9 := h.2.2.2.2.2.2.2.2.1 [200, 0, 0, 0, 0, 1, 0, 0, 0]
    ⟨[200], [0], 1⟩ [5] 0 (by decide) (by decide) (by decide)
    (SeekHitsBad.here _ _ (by decide) (by decide))
  have h10 := h.2.2.2.2.2.2.2.2.2.1 [200, 0, 0, 0, 0, 1, 0, 0, 0]
    ⟨[200], [0], 1⟩ (by decide) (by decide)
    (ReachesBadBefore.here _ _ (by decide))
  have h11 := h.2.2.2.2.2.2.2.2.2.2 badPrevIter 0 (by decide) (by decide)
    (by decide) (ReachesBadBefore.here _ _ (by decide))
  exact ⟨⟨by decide, h2, h1.1.1, h1.2.2.2.2.2⟩,
    ⟨by decide, by decide, h5.1⟩, h9.1, h10.1, h11.1, h11.2⟩

/-- Witness for C1: a three-entry block with restart interval 2 builds,
parses, and iterates back to the original sequence. -/
theorem block_roundtrip_witness :
    blockToList (BlockBuilder.addAll (Options.mk 2) BlockBuilder.init
      [([1], [10]), ([1, 2], [20]), ([3], [30])]).Finish.buffer 4 =
      [([1], [10]), ([1, 2], [20]), ([3], [30])] :=
  block_roundtrip (Options.mk 2) [([1], [10]), ([1, 2], [20]), ([3], [30])]
    (by simp [List.chain'_cons]; decide) (by decide) (by decide) (by decide)

theorem byteCompare_eq_iff :
    ∀ a b : List Nat, byteCompare a b = Ordering.eq ↔ a = b := by
  intro a
  induction a with
  | nil =>
    intro b
    cases b <;> simp [byteCompare]
  | cons x xs ih =>
    intro b
    cases b with
    | nil => simp [byteCompare]
    | cons y ys =>
      simp only [byteCompare]
      by_cases h1 : x < y
      · rw [if_pos h1]
        constructor
        · intro hc; exact absurd hc (by decide)
        · intro hc
          injection hc with hc1 _
          omega
      · rw [if_neg h1]
        by_cases h2 : y < x
        · rw [if_pos h2]
          constructor
          · intro hc; exact absurd hc (by decide)
          · intro hc
            injection hc with hc1 _
            omega
        · rw [if_neg h2]
          have hxy : x = y := by omega
          subst hxy
          rw [ih ys]
          constructor
          · intro hc; rw [hc]
          · intro hc; injection hc

theorem byteCompare_gt_iff :
    ∀ a b : List Nat,
      byteCompare a b = Ordering.gt ↔ byteCompare b a = Ordering.lt := by
  intro a
  induction a with
  | nil =>
    intro b
    cases b <;> simp [byteCompare]
  | cons x xs ih =>
    intro b
    cases b with
    | nil => simp [byteCompare]
    | cons y ys =>
      simp only [byteCompare]
      by_cases h1 : x < y
      · rw [if_pos h1, if_neg (by omega), if_pos h1]
        constructor <;> (intro hc; exact absurd hc (by decide))
      · rw [if_neg h1]
        by_cases h2 : y < x
        · rw [if_pos h2, if_pos h2]
          simp
        · rw [if_neg h2, if_neg h2, if_neg h1]
          exact ih ys

theorem byteCompare_lt_trans :
    ∀ a b c : List Nat, byteCompare a b = Ordering.lt →
      byteCompare b c = Ordering.lt → byteCompare a c = Ordering.lt := by
  intro a
  induction a with
  | nil =>
    intro b c h1 h2
    cases b with
    | nil => exact absurd h1 (by simp [byteCompare])
    | cons y ys =>
      cases c with
      | nil => exact absurd h2 (by simp [byteCompare])
      | cons z zs => simp [byteCompare]
  | cons x xs ih =>
    intro b c h1 h2
    cases b with
    | nil => exact absurd h1 (by simp [byteCompare])
    | cons y ys =>
      cases c with
      | nil => exact absurd h2 (by simp [byteCompare])
      | cons z zs =>
        simp only [byteCompare] at h1 h2 ⊢
        by_cases hxy : x < y
        · by_cases hyz : y < z
          · rw [if_pos (by omega)]
          · rw [if_neg hyz] at h2
            by_cases hzy : z < y
            · rw [if_pos hzy] at h2
              exact absurd h2 (by decide)
            · rw [if_pos (by omega)]
        · rw [if_neg hxy] at h1
          by_cases hyx : y < x
          · rw [if_pos hyx] at h1
            exact absurd h1 (by decide)
          · rw [if_neg hyx] at h1
            by_cases hyz : y < z
            · rw [if_pos (by omega)]
            · rw [if_neg hyz] at h2
              by_cases hzy : z < y
              · rw [if_pos hzy] at h2
                exact absurd h2 (by decide)
              · rw [if_neg hzy] at h2
                rw [if_neg (by omega), if_neg (by omega)]
                exact ih ys zs h1 h2

theorem byteCompare_lt_of_lt_of_nGt (a b t : List Nat)
    (h1 : byteCompare a b = Ordering.lt)
    (h2 : byteCompare b t ≠ Ordering.gt) :
    byteCompare a t = Ordering.lt := by
  cases h3 : byteCompare b t with
  | lt => exact byteCompare_lt_trans a b t h1 h3
  | eq =>
    rw [byteCompare_eq_iff] at h3
    rw [← h3]
    exact h1
  | gt => exact absurd h3 h2

theorem byteCompare_gt_of_gt_of_lt (a b t : List Nat)
    (hg : byteCompare a t = Ordering.gt)
    (hab : byteCompare a b = Ordering.lt) :
    byteCompare b t = Ordering.gt := by
  rw [byteCompare_gt_iff] at hg ⊢
  exact byteCompare_lt_trans t a b hg hab

/-- The first entry whose key is greater than or equal to the target under
the bytewise comparator, as the spec describes the landing point of
Seek. -/
def firstGE (t : List Nat) : List (List Nat × List Nat) →
    Option (List Nat × List Nat)
  | [] => none
  | (k, v) :: l =>
    if byteCompare k t = Ordering.lt then firstGE t l else some (k, v)

theorem firstGE_drop (t : List Nat) :
    ∀ (es : List (List Nat × List Nat)) (m : Nat), m ≤ es.length →
      (∀ p ∈ es.take m, byteCompare p.1 t = Ordering.lt) →
      firstGE t (es.drop m) = firstGE t es := by
  intro es
  induction es with
  | nil =>
    intro m hm _
    have : m = 0 := by simpa using hm
    subst this
    rfl
  | cons e es ih =>
    intro m hm htake
    cases m with
    | zero => rfl
    | succ j =>
      obtain ⟨k, v⟩ := e
      have hk : byteCompare k t = Ordering.lt :=
        htake (k, v) (by simp [List.take_succ_cons])
      have hrest : ∀ p ∈ es.take j, byteCompare p.1 t = Ordering.lt := by
        intro p hp
        exact htake p (by simp [List.take_succ_cons, hp])
      show firstGE t (es.drop j) = firstGE t ((k, v) :: es)
      rw [ih j (by simpa using hm) hrest]
      simp [firstGE, hk]

theorem firstGE_mem (t : List Nat) (v0 : List Nat) :
    ∀ es : List (List Nat × List Nat),
      List.Pairwise (fun p q => byteCompare p.1 q.1 = Ordering.lt) es →
      (t, v0) ∈ es → firstGE t es = some (t, v0) := by
  intro es
  induction es with
  | nil => intro _ h; simp at h
  | cons e es ih =>
    intro hpw hmem
    obtain ⟨k, v⟩ := e
    rcases List.mem_cons.mp hmem with heq | htail
    · injection heq with h1 h2
      subst h1
      subst h2
      have hself : byteCompare t t = Ordering.eq := (byteCompare_eq_iff t t).mpr rfl
      simp [firstGE, hself]
    · have hk : byteCompare k t = Ordering.lt := by
        have := (List.pairwise_cons.mp hpw).1 (t, v0) htail
        simpa using this
      simp only [firstGE, if_pos hk]
      exact ih (List.pairwise_cons.mp hpw).2 htail

theorem decodesTo_length_le (R : List Nat) :
    ∀ (l : List (List Nat × List Nat)) (off : Nat) (pk : List Nat),
      DecodesTo R off pk l → off + l.length ≤ R.length := by
  intro l
  induction l with
  | nil =>
    intro off pk h
    cases h with
    | nil => simp
  | cons e l ih =>
    intro off pk h
    obtain ⟨k, v⟩ := e
    obtain ⟨nxt, hd, hrest⟩ := decodesTo_cons_inv R off pk k v l h
    obtain ⟨-, h3, h4⟩ := decodeEntry_bounds R off pk k v nxt hd
    have := ih nxt k hrest
    simp only [List.length_cons]
    omega

theorem addAll_append (opts : Options) :
    ∀ (l1 l2 : List (List Nat × List Nat)) (b : BlockBuilder),
      BlockBuilder.addAll opts b (l1 ++ l2) =
        BlockBuilder.addAll opts (BlockBuilder.addAll opts b l1) l2 := by
  intro l1
  induction l1 with
  | nil => intro l2 b; rfl
  | cons e l1 ih =>
    intro l2 b
    obtain ⟨k, v⟩ := e
    show BlockBuilder.addAll opts (b.Add opts k v) (l1 ++ l2) = _
    exact ih l2 (b.Add opts k v)

theorem addAll_single (opts : Options) (b : BlockBuilder)
    (p : List Nat × List Nat) :
    BlockBuilder.addAll opts b [p] = b.Add opts p.1 p.2 := rfl

theorem getD_append_lt (xs ys : List Nat) (j d : Nat) (h : j < xs.length) :
    (xs ++ ys).getD j d = xs.getD j d := by
  rw [List.getD_eq_getElem _ _ (by simp; omega), List.getD_eq_getElem _ _ h]
  exact List.getElem_append_left h

theorem getD_append_len (xs : List Nat) (y d : Nat) :
    (xs ++ [y]).getD xs.length d = y := by
  rw [List.getD_eq_getElem _ _ (by simp)]
  simp

theorem restartFact (opts : Options) (hr : 1 ≤ opts.block_restart_interval)
    (es : List (List Nat × List Nat))
    (hsz : ∀ p ∈ es, p.1.length < 2 ^ 32 ∧ p.2.length < 2 ^ 32) :
    ∀ m, m ≤ es.length →
      CountInv opts.block_restart_interval m
        (BlockBuilder.addAll opts BlockBuilder.init (es.take m)) ∧
      (∀ j, j < (BlockBuilder.addAll opts BlockBuilder.init
          (es.take m)).restarts.length →
        DecodesTo (BlockBuilder.addAll opts BlockBuilder.init es).buffer
          ((BlockBuilder.addAll opts BlockBuilder.init
            (es.take m)).restarts.getD j 0)
          [] (es.drop (j * opts.block_restart_interval))) := by
  intro m
  induction m with
  | zero =>
    intro _
    constructor
    · exact countInv_init _
    · intro j hj
      simp [BlockBuilder.addAll, BlockBuilder.init] at hj
  | succ m ih =>
    intro hm1
    have hm : m < es.length := by omega
    obtain ⟨hci, hrf⟩ := ih (by omega)
    have hstep : BlockBuilder.addAll opts BlockBuilder.init (es.take (m + 1)) =
        (BlockBuilder.addAll opts BlockBuilder.init (es.take m)).Add opts
          (es[m]).1 (es[m]).2 := by
      rw [List.take_succ, List.getElem?_eq_getElem hm]
      show BlockBuilder.addAll opts BlockBuilder.init
        (es.take m ++ [es[m]]) = _
      rw [addAll_append, addAll_single]
    constructor
    · rw [hstep]
      exact countInv_add opts hr _ m _ _ hci
    · intro j hj
      rw [hstep] at hj ⊢
      by_cases hres : addIsRestart opts
          (BlockBuilder.addAll opts BlockBuilder.init (es.take m)) = true
      · rw [add_restarts, if_pos hres] at hj ⊢
        rw [List.length_append, List.length_cons, List.length_nil] at hj
        rcases Nat.lt_or_ge j (BlockBuilder.addAll opts BlockBuilder.init
            (es.take m)).restarts.length with hlt | hge
        · rw [getD_append_lt _ _ _ _ hlt]
          exact hrf j hlt
        · have hjeq : j = (BlockBuilder.addAll opts BlockBuilder.init
              (es.take m)).restarts.length := by omega
          subst hjeq
          rw [getD_append_len]
          have hmul : (BlockBuilder.addAll opts BlockBuilder.init
              (es.take m)).restarts.length *
              opts.block_restart_interval = m := by
            rcases Nat.eq_zero_or_pos m with hm0 | hmpos
            · subst hm0
              obtain ⟨hre, -⟩ := hci.1 rfl
              rw [hre]
              simp
            · obtain ⟨g, hL, hc1, hcr, hmeq⟩ := hci.2 hmpos
              have hne : (BlockBuilder.addAll opts BlockBuilder.init
                  (es.take m)).restarts ≠ [] := by
                intro h0
                rw [h0] at hL
                simp at hL
              have hempty : (BlockBuilder.addAll opts BlockBuilder.init
                  (es.take m)).restarts.isEmpty = false := by
                simpa [List.isEmpty_iff] using hne
              have hcnt : opts.block_restart_interval ≤
                  (BlockBuilder.addAll opts BlockBuilder.init
                    (es.take m)).counter := by
                simpa [addIsRestart, hempty] using hres
              have hceq : (BlockBuilder.addAll opts BlockBuilder.init
                  (es.take m)).counter = opts.block_restart_interval := by
                omega
              rw [hL, Nat.succ_mul]
              omega
          rw [hmul]
          have hszd : ∀ p ∈ es.drop m,
              p.1.length < 2 ^ 32 ∧ p.2.length < 2 ^ 32 :=
            fun p hp => hsz p (List.mem_of_mem_drop hp)
          have hchain := chainFrom opts (es.drop m)
            (BlockBuilder.addAll opts BlockBuilder.init (es.take m)) []
            hszd (goodPrev_of_restart opts _ [] _ hres)
          rw [← addAll_append, List.take_append_drop] at hchain
          exact hchain
      · rw [add_restarts, if_neg hres] at hj ⊢
        exact hrf j hj

theorem binSearch_spec (blk : Block) (t : List Nat) (keyAt : Nat → List Nat)
    (L : Nat)
    (hrk : ∀ j, j < L → ∃ p : List Nat × List Nat × Nat,
      restartKey blk j = some p ∧ p.1 = keyAt j) :
    ∀ (fuel lo hi : Nat), hi < L → lo ≤ hi → hi - lo < fuel →
      (byteCompare (keyAt lo) t ≠ Ordering.gt ∨ lo = 0) →
      ∃ i, binSearchRestarts blk t fuel lo hi = some i ∧ lo ≤ i ∧ i ≤ hi ∧
        (byteCompare (keyAt i) t ≠ Ordering.gt ∨ i = 0) := by
  intro fuel
  induction fuel with
  | zero => intro lo hi h1 h2 h3 h4; omega
  | succ f ih =>
    intro lo hi hL hle hfuel hlo
    by_cases hhl : hi ≤ lo
    · exact ⟨lo, by simp only [binSearchRestarts, if_pos hhl], le_refl lo,
        hle, hlo⟩
    · obtain ⟨p, hp, hpk⟩ := hrk ((lo + hi + 1) / 2) (by omega)
      by_cases hg : byteCompare p.1 t = Ordering.gt
      · obtain ⟨i, hbin, hli, hih, hPi⟩ := ih lo ((lo + hi + 1) / 2 - 1)
          (by omega) (by omega) (by omega) hlo
        refine ⟨i, ?_, hli, by omega, hPi⟩
        simp only [binSearchRestarts, if_neg hhl]
        rw [hp]
        simp only [Option.some_bind, if_pos hg]
        exact hbin
      · obtain ⟨i, hbin, hli, hih, hPi⟩ := ih ((lo + hi + 1) / 2) hi hL
          (by omega) (by omega)
          (Or.inl (by rw [← hpk]; exact hg))
        refine ⟨i, ?_, by omega, hih, hPi⟩
        simp only [binSearchRestarts, if_neg hhl]
        rw [hp]
        simp only [Option.some_bind, if_neg hg]
        exact hbin

theorem seekScan_spec (t : List Nat) :
    ∀ (l : List (List Nat × List Nat)) (fuel off : Nat) (pk : List Nat)
      (it : BlockIter),
      DecodesTo it.block.region off pk l → l.length < fuel →
      (match firstGE t l with
       | none =>
           (BlockIter.seekScan t fuel it off pk).valid = false ∧
           (BlockIter.seekScan t fuel it off pk).status = it.status
       | some (k, v) =>
           (BlockIter.seekScan t fuel it off pk).valid = true ∧
           (BlockIter.seekScan t fuel it off pk).key = k ∧
           (BlockIter.seekScan t fuel it off pk).value = v ∧
           (BlockIter.seekScan t fuel it off pk).status = it.status) := by
  intro l
  induction l with
  | nil =>
    intro fuel off pk it hdec hfuel
    cases fuel with
    | zero => omega
    | succ f =>
      cases hdec with
      | nil =>
        simp only [firstGE, BlockIter.seekScan, if_pos rfl]
        exact ⟨rfl, rfl⟩
  | cons e l ih =>
    intro fuel off pk it hdec hfuel
    obtain ⟨k, v⟩ := e
    obtain ⟨nxt, hd, hrest⟩ :=
      decodesTo_cons_inv it.block.region off pk k v l hdec
    obtain ⟨hofflt, -, -⟩ :=
      decodeEntry_bounds it.block.region off pk k v nxt hd
    cases fuel with
    | zero => omega
    | succ f =>
      have hne : ¬ (off = it.block.region.length) := by omega
      have hstep : BlockIter.seekScan t (f + 1) it off pk =
          (if byteCompare k t = Ordering.lt then
            BlockIter.seekScan t f it nxt k
          else
            { it with
              valid := true
              current := off
              nextOff := nxt
              key := k
              value := v }) := by
        simp only [BlockIter.seekScan, if_neg hne]
        rw [hd]
      by_cases hkt : byteCompare k t = Ordering.lt
      · rw [hstep, if_pos hkt]
        simp only [firstGE, if_pos hkt]
        exact ih f nxt k it hrest (by simp at hfuel; omega)
      · rw [hstep, if_neg hkt]
        simp only [firstGE, if_neg hkt]
        simp

/-- The iterator produced by creating an iterator over the finished block
built from `es` and calling Seek(t) on it. -/
def seekResult (opts : Options) (es : List (List Nat × List Nat))
    (t : List Nat) : BlockIter :=
  (newIterator (BlockBuilder.addAll opts
    BlockBuilder.init es).Finish.buffer).seek t

/-- C2: on a block built from a strictly increasing key sequence under a
positive restart interval, Seek(T) leaves the iterator Valid on the first
entry whose key is ≥ T under the bytewise comparator (with that entry's
key and value loaded), and Invalid with ok status when every key is less
than T; in particular, Seek on a key present in the block lands exactly on
its entry. -/
theorem seek_correctness (opts : Options)
    (hr : 1 ≤ opts.block_restart_interval)
    (es : List (List Nat × List Nat))
    (hsorted : List.Chain' (fun p q => byteCompare p.1 q.1 = Ordering.lt) es)
    (hsz : ∀ p ∈ es, p.1.length < 2 ^ 32 ∧ p.2.length < 2 ^ 32)
    (hbuf : (BlockBuilder.addAll opts
      BlockBuilder.init es).buffer.length < 2 ^ 32)
    (hn : es.length < 2 ^ 32) (t : List Nat) :
    (match firstGE t es with
     | none => (seekResult opts es t).valid = false ∧
         (seekResult opts es t).status.ok = true
     | some (k, v) => (seekResult opts es t).valid = true ∧
         (seekResult opts es t).key = k ∧
         (seekResult opts es t).value = v ∧
         (seekResult opts es t).status.ok = true) ∧
    (∀ v0 : List Nat, (t, v0) ∈ es →
      (seekResult opts es t).valid = true ∧
      (seekResult opts es t).key = t ∧
      (seekResult opts es t).value = v0) := by
  haveI : IsTrans (List Nat × List Nat)
      (fun p q => byteCompare p.1 q.1 = Ordering.lt) :=
    ⟨fun a b c h1 h2 => byteCompare_lt_trans _ _ _ h1 h2⟩
  have hpw : List.Pairwise
      (fun p q => byteCompare p.1 q.1 = Ordering.lt) es :=
    List.chain'_iff_pairwise.mp hsorted
  have hpwidx := List.pairwise_iff_getElem.mp hpw
  simp only [seekResult]
  set b := BlockBuilder.addAll opts BlockBuilder.init es with hbdef
  have hzero : RestartsZeroInv b :=
    addAll_zeroInv opts es BlockBuilder.init restartsZeroInv_init
  have hoffs := zeroInv_offsets b hzero
  have hnum : b.restarts.length < 2 ^ 32 := by
    have h1 := addAll_restarts_le opts es BlockBuilder.init
    rw [← hbdef] at h1
    have h2 : BlockBuilder.init.restarts.length = 0 := rfl
    omega
  have hparse := parseBlock_finish b hoffs hbuf hnum
  have hni : newIterator b.Finish.buffer =
      mkOkIter ⟨b.buffer, b.restarts, b.restarts.length⟩ := by
    unfold newIterator
    rw [hparse]
    rfl
  rw [hni]
  obtain ⟨hci, hchains⟩ := restartFact opts hr es hsz es.length (le_refl _)
  rw [List.take_length] at hci hchains
  rw [← hbdef] at hci hchains
  have hstok : ¬ ((mkOkIter ⟨b.buffer, b.restarts,
      b.restarts.length⟩).status.ok = false) := by
    rw [mkOkIter_status]
    decide
  by_cases hL0 : b.restarts.length = 0
  · have hes0 : es = [] := by
      rcases Nat.eq_zero_or_pos es.length with h0 | hpos
      · exact List.length_eq_zero.mp h0
      · exfalso
        obtain ⟨g, hLg, -, -, -⟩ := hci.2 hpos
        omega
    have hseekeq : (mkOkIter ⟨b.buffer, b.restarts,
        b.restarts.length⟩).seek t =
        { mkOkIter ⟨b.buffer, b.restarts, b.restarts.length⟩ with
          valid := false } := by
      unfold BlockIter.seek
      rw [if_neg hstok, if_pos (show (mkOkIter ⟨b.buffer, b.restarts,
        b.restarts.length⟩).block.numRestarts = 0 from hL0)]
    rw [hseekeq]
    subst hes0
    constructor
    · exact ⟨rfl, rfl⟩
    · intro v0 hmem
      simp at hmem
  · have hn1 : 1 ≤ es.length := by
      by_contra h0
      obtain ⟨hre, -⟩ := hci.1 (by omega)
      rw [hre] at hL0
      simp at hL0
    obtain ⟨g, hLg, hc1, hcr, hmeq⟩ := hci.2 hn1
    have hjr : ∀ j, j < b.restarts.length →
        j * opts.block_restart_interval < es.length := by
      intro j hj
      have hjg : j ≤ g := by omega
      have hmul : j * opts.block_restart_interval ≤
          g * opts.block_restart_interval :=
        Nat.mul_le_mul_right _ hjg
      omega
    have hrk : ∀ j, j < b.restarts.length →
        ∃ p : List Nat × List Nat × Nat,
          restartKey ⟨b.buffer, b.restarts, b.restarts.length⟩ j = some p ∧
          p.1 = (es.getD (j * opts.block_restart_interval) ([], [])).1 := by
      intro j hj
      have hchain := hchains j hj
      have hjrlt := hjr j hj
      rw [List.drop_eq_getElem_cons hjrlt] at hchain
      obtain ⟨nxt, hd, -⟩ := decodesTo_cons_inv _ _ _ _ _ _ hchain
      refine ⟨_, hd, ?_⟩
      rw [List.getD_eq_getElem es ([], []) hjrlt]
      rfl
    obtain ⟨i, hbin, hli0, hihi, hPi⟩ := binSearch_spec
      ⟨b.buffer, b.restarts, b.restarts.length⟩ t
      (fun j => (es.getD (j * opts.block_restart_interval) ([], [])).1)
      b.restarts.length hrk
      b.restarts.length 0 (b.restarts.length - 1)
      (by omega) (by omega) (by omega) (Or.inr rfl)
    have hbin2 : binSearchRestarts (mkOkIter ⟨b.buffer, b.restarts,
        b.restarts.length⟩).block t
        (mkOkIter ⟨b.buffer, b.restarts,
          b.restarts.length⟩).block.numRestarts 0
        ((mkOkIter ⟨b.buffer, b.restarts,
          b.restarts.length⟩).block.numRestarts - 1) = some i := hbin
    have hseekeq : (mkOkIter ⟨b.buffer, b.restarts,
        b.restarts.length⟩).seek t =
        BlockIter.seekScan t (b.buffer.length + 1)
          (mkOkIter ⟨b.buffer, b.restarts, b.restarts.length⟩)
          (b.restarts.getD i 0) [] := by
      unfold BlockIter.seek
      rw [if_neg hstok, if_neg (show ¬ ((mkOkIter ⟨b.buffer, b.restarts,
        b.restarts.length⟩).block.numRestarts = 0) from hL0), hbin2]
      rfl
    rw [hseekeq]
    have hchain_i := hchains i (by omega)
    have hflt : (es.drop (i * opts.block_restart_interval)).length <
        b.buffer.length + 1 := by
      have := decodesTo_length_le b.buffer _ _ _ hchain_i
      omega
    have hchain_i2 : DecodesTo (mkOkIter ⟨b.buffer, b.restarts,
        b.restarts.length⟩).block.region (b.restarts.getD i 0) []
        (es.drop (i * opts.block_restart_interval)) := hchain_i
    have hscan := seekScan_spec t (es.drop (i * opts.block_restart_interval))
      (b.buffer.length + 1) (b.restarts.getD i 0) []
      (mkOkIter ⟨b.buffer, b.restarts, b.restarts.length⟩) hchain_i2 hflt
    have htake : ∀ p ∈ es.take (i * opts.block_restart_interval),
        byteCompare p.1 t = Ordering.lt := by
      rcases hPi with hP | h0
      · intro p hp
        obtain ⟨idx, hidx, hpe⟩ := List.mem_iff_getElem.mp hp
        have hidx2 : idx < i * opts.block_restart_interval := by
          have := hidx
          simp only [List.length_take] at this
          omega
        have hidxn : idx < es.length := by
          have hirn := hjr i (by omega)
          omega
        have hkey : (es.take (i * opts.block_restart_interval))[idx] =
            es[idx] := List.getElem_take es
        have hirn := hjr i (by omega)
        have hlt : byteCompare (es[idx]).1
            ((es.getD (i * opts.block_restart_interval) ([], [])).1) =
            Ordering.lt := by
          rw [List.getD_eq_getElem es ([], []) hirn]
          exact hpwidx idx (i * opts.block_restart_interval) hidxn hirn hidx2
        have hres := byteCompare_lt_of_lt_of_nGt _ _ _ hlt hP
        rw [← hpe, hkey]
        exact hres
      · rw [h0]
        simp
    have hile : i * opts.block_restart_interval ≤ es.length :=
      le_of_lt (hjr i (by omega))
    have hbridge := firstGE_drop t es (i * opts.block_restart_interval)
      hile htake
    constructor
    · rw [← hbridge]
      cases hfo : firstGE t (es.drop (i * opts.block_restart_interval)) with
      | none =>
        rw [hfo] at hscan
        exact ⟨hscan.1, by rw [hscan.2]; rfl⟩
      | some p =>
        obtain ⟨k, v⟩ := p
        rw [hfo] at hscan
        exact ⟨hscan.1, hscan.2.1, hscan.2.2.1, by rw [hscan.2.2.2]; rfl⟩
    · intro v0 hmem
      have hfge : firstGE t es = some (t, v0) := firstGE_mem t v0 es hpw hmem
      have hfo : firstGE t (es.drop (i * opts.block_restart_interval)) =
          some (t, v0) := by rw [hbridge, hfge]
      rw [hfo] at hscan
      exact ⟨hscan.1, hscan.2.1, hscan.2.2.1⟩

/-- Witness for C2: seeking an existing key in a three-entry block lands
exactly on its entry. -/
theorem seek_correctness_witness :
    (seekResult (Options.mk 2) [([1], [10]), ([1, 2], [20]), ([3], [30])]
      [1, 2]).valid = true ∧
    (seekResult (Options.mk 2) [([1], [10]), ([1, 2], [20]), ([3], [30])]
      [1, 2]).key = [1, 2] ∧
    (seekResult (Options.mk 2) [([1], [10]), ([1, 2], [20]), ([3], [30])]
      [1, 2]).value = [20] := by
  have h := seek_correctness (Options.mk 2) (by decide)
    [([1], [10]), ([1, 2], [20]), ([3], [30])]
    (by simp [List.chain'_cons]; decide) (by decide) (by decide) (by decide)
    [1, 2]
  exact h.2 [20] (by decide)

end LevelDB
